import Mathlib

/-!
Verification development for the E4P file-encryption service.

The Python source under `app/` is shallowly embedded here:

* `app/crypto/container.py` — the E4P container header codec
  (`E4PHeader`, `E4PContainer.create_header`, `serialize_header`,
  `deserialize_header`, `validate_header`);
* `app/crypto/aead.py` — the two AEAD cipher variants and
  `create_encryptor`;
* `app/crypto/kdf.py` — Argon2id key derivation (modelled abstractly);
* `app/crypto/stream.py` — `StreamProcessor.encrypt_file`,
  `decrypt_file` and `get_file_info`;
* `app/services/tasks.py` — the task-manager worker loop, modelled as a
  labelled transition system;
* `app/config.py` — the default settings.

Python byte strings become `List Nat` (each entry < 256), Python `str`
becomes `String`, raised exceptions become `Except PyErr` or `Option`,
and file I/O becomes explicit byte-list arguments and results.
External library primitives (AES-GCM, the NaCl secret box, Argon2id,
`os.urandom`) are modelled by explicit deterministic functions or by
explicit parameters for the random inputs; their documented interface
behaviour (lengths, validation, tag checking) is kept exact.
-/

namespace E4P

/-- Python `bytes` values: lists of byte values (each < 256). -/
abbrev Bytes := List Nat

/-- The exceptions that the embedded code can raise. -/
inductive PyErr where
  | valueError (msg : String)
  | invalidTag
  | cryptoError
  | keyError (key : String)
  | jsonDecodeError
  | unicodeDecodeError
  | structError
  deriving DecidableEq

/-- Recursion core of `chunksOf`; the fuel argument only forces
structural recursion and any value above the list length is enough. -/
def chunksOfAux (cs : Nat) : Nat → Bytes → List Bytes
  | 0, _ => []
  | fuel + 1, l =>
      if l = [] ∨ cs = 0 then []
      else l.take cs :: chunksOfAux cs fuel (l.drop cs)

/-- Models the read loop `while chunk := f.read(cs): ...` in
`stream.py`: the byte list split into successive pieces of `cs` bytes
(the final piece may be shorter).  `f.read(0)` returns an empty chunk,
so a chunk size of 0 yields no chunks at all. -/
def chunksOf (cs : Nat) (l : Bytes) : List Bytes :=
  chunksOfAux cs (l.length + 1) l

/-! ### Base64 (`base64.b64encode` / `base64.b64decode`)

`container.py` base64-encodes the salt and nonce into the header and
`validate_header` / `decrypt_file` decode them with
`base64.b64decode(s)` (non-strict mode).  CPython's non-strict decoder
discards characters outside the base64 alphabet, treats `=` as padding
only where it can complete a group, and raises `binascii.Error` when
the data characters of the final group cannot be padded; the state
machine below reproduces that behaviour. -/
/-- The base64 alphabet, by sextet value. -/
def b64Char (n : Nat) : Char :=
  if n < 26 then Char.ofNat (65 + n)
  else if n < 52 then Char.ofNat (97 + (n - 26))
  else if n < 62 then Char.ofNat (48 + (n - 52))
  else if n = 62 then Char.ofNat 43
  else Char.ofNat 47

/-- Sextet value of a base64 alphabet character (`none` for characters
outside the alphabet). -/
def b64Val (c : Char) : Option Nat :=
  let n := c.toNat
  if 65 ≤ n ∧ n ≤ 90 then some (n - 65)
  else if 97 ≤ n ∧ n ≤ 122 then some (n - 97 + 26)
  else if 48 ≤ n ∧ n ≤ 57 then some (n - 48 + 52)
  else if n = 43 then some 62
  else if n = 47 then some 63
  else none

/-- Canonical base64 encoding of a byte string, as performed by
`base64.b64encode(...).decode('utf-8')` in `create_header`. -/
def b64encodeBytes : Bytes → List Char
  | [] => []
  | [b1] =>
      [b64Char (b1 / 4), b64Char (b1 % 4 * 16), Char.ofNat 61, Char.ofNat 61]
  | [b1, b2] =>
      [b64Char (b1 / 4), b64Char (b1 % 4 * 16 + b2 / 16),
       b64Char (b2 % 16 * 4), Char.ofNat 61]
  | b1 :: b2 :: b3 :: rest =>
      b64Char (b1 / 4) :: b64Char (b1 % 4 * 16 + b2 / 16) ::
      b64Char (b2 % 16 * 4 + b3 / 64) :: b64Char (b3 % 64) ::
      b64encodeBytes rest

/-- Emit the bytes encoded by a complete group of four sextets. -/
def b64Quad (s1 s2 s3 s4 : Nat) : Bytes :=
  [s1 * 4 + s2 / 16, s2 % 16 * 16 + s3 / 4, s3 % 4 * 64 + s4]

/-- State machine of CPython's non-strict `binascii.a2b_base64`:
`buf` holds the sextets of the current group (at most 3), `pend`
records a padding character seen while the group held exactly two
sextets, and `acc` the bytes already emitted. -/
def b64decodeAux : List Char → List Nat → Bool → Bytes → Option Bytes
  | [], buf, pend, acc =>
      match buf with
      | [] => if pend then none else some acc
      | _ => none
  | c :: rest, buf, pend, acc =>
      match b64Val c with
      | some v =>
          match buf with
          | [s1, s2, s3] => b64decodeAux rest [] false (acc ++ b64Quad s1 s2 s3 v)
          | _ => b64decodeAux rest (buf ++ [v]) false acc
      | none =>
          if c.toNat = 61 then
            match buf, pend with
            | [s1, s2], false => b64decodeAux rest [s1, s2] true acc
            | [s1, s2], true => some (acc ++ [s1 * 4 + s2 / 16])
            | [s1, s2, s3], _ =>
                some (acc ++ [s1 * 4 + s2 / 16, s2 % 16 * 16 + s3 / 4])
            | _, _ => b64decodeAux rest buf pend acc
          else
            b64decodeAux rest buf pend acc

/-- `base64.b64decode(s)` (non-strict), returning `none` where Python
raises `binascii.Error`. -/
def pythonB64Decode (s : String) : Option Bytes :=
  b64decodeAux s.data [] false []

/-! ### UTF-8 decoding (`bytes.decode('utf-8')`)

`deserialize_header` decodes the JSON slice with `.decode('utf-8')`,
which raises `UnicodeDecodeError` on malformed sequences (including
overlong encodings and surrogate code points). -/
/-- Whether a byte is a UTF-8 continuation byte (`0x80`–`0xBF`). -/
def isCont (b : Nat) : Bool := 128 ≤ b && b ≤ 191

/-- Decode one UTF-8 sequence: from a leading byte and the remaining
bytes, the code point and the bytes after the sequence (strict, as
`bytes.decode('utf-8')`: no overlong encodings, no surrogates). -/
def utf8Head (b : Nat) (rest : Bytes) : Option (Nat × Bytes) :=
  if b < 128 then some (b, rest)
  else if 194 ≤ b && b ≤ 223 then
    match rest with
    | c1 :: r =>
        if isCont c1 then some ((b - 192) * 64 + (c1 - 128), r)
        else none
    | _ => none
  else if 224 ≤ b && b ≤ 239 then
    match rest with
    | c1 :: c2 :: r =>
        let lo1 := if b = 224 then 160 else 128
        let hi1 := if b = 237 then 159 else 191
        if (lo1 ≤ c1 && c1 ≤ hi1) && isCont c2 then
          some ((b - 224) * 4096 + (c1 - 128) * 64 + (c2 - 128), r)
        else none
    | _ => none
  else if 240 ≤ b && b ≤ 244 then
    match rest with
    | c1 :: c2 :: c3 :: r =>
        let lo1 := if b = 240 then 144 else 128
        let hi1 := if b = 244 then 143 else 191
        if (lo1 ≤ c1 && c1 ≤ hi1) && (isCont c2 && isCont c3) then
          some ((b - 240) * 262144 + (c1 - 128) * 4096 +
            (c2 - 128) * 64 + (c3 - 128), r)
        else none
    | _ => none
  else none

/-- Recursion core of `utf8Decode`.  Each sequence consumes at least
its leading byte, so fuel equal to the input length suffices. -/
def utf8DecodeAux : Nat → Bytes → Option (List Char)
  | _, [] => some []
  | 0, _ :: _ => none
  | fuel + 1, b :: rest =>
      match utf8Head b rest with
      | some (n, r) => (utf8DecodeAux fuel r).map (fun cs => Char.ofNat n :: cs)
      | none => none

/-- Strict UTF-8 decoding of a byte string, `none` where Python raises
`UnicodeDecodeError`. -/
def utf8Decode (bs : Bytes) : Option (List Char) :=
  utf8DecodeAux bs.length bs

/-! ### The JSON wire fragment

`serialize_header` emits `json.dumps(header.to_dict(),
separators=(',',':'))` and `deserialize_header` reads it back with
`json.loads`.  The wire schema (spec §6) is a flat object whose values
are strings, integers, and the one nested object `kdf_params` with
integer values; the printer and parser below model exactly this
fragment of JSON.  `json.dumps` defaults to `ensure_ascii=True`, so
every code point outside `0x20`–`0x7e` (and `"` and `\`) is emitted as
an escape and the output is pure ASCII. -/
/-- A JSON value of the modelled fragment: a string, an integer, a
nested object mapping names to integers (the shape of `kdf_params`),
`null`, or a boolean.  JSON floats and arrays are outside the
fragment; the parser rejects them where `json.loads` accepts them, so
the parser is used only in hypotheses and in sound (success-side)
conclusions. -/
inductive JVal where
  | jstr (s : String)
  | jint (n : Int)
  | jobj (fs : List (String × Int))
  | jnull
  | jbool (b : Bool)
  deriving DecidableEq

/-- Left brace (written via its code point to keep it out of string
literals). -/
def lbrace : Char := Char.ofNat 123

/-- Right brace. -/
def rbrace : Char := Char.ofNat 125

/-- Lowercase hexadecimal digit, as produced by `json.dumps` escapes. -/
def hexDigit (n : Nat) : Char :=
  if n < 10 then Char.ofNat (48 + n) else Char.ofNat (87 + n)

/-- Four-digit lowercase hexadecimal rendering of `n` (mod 2^16). -/
def hex4 (n : Nat) : List Char :=
  [hexDigit (n / 4096 % 16), hexDigit (n / 256 % 16),
   hexDigit (n / 16 % 16), hexDigit (n % 16)]

/-- How `json.dumps` (with the default `ensure_ascii=True`) renders a
single character inside a string literal: short escapes for `"`, `\`
and the common control characters, `\u00xx` for other control
characters, the character itself for printable ASCII, `\uxxxx` for
other code points of the basic plane and a surrogate pair for code
points above it. -/
def escapeChar (c : Char) : List Char :=
  let n := c.toNat
  if n = 34 then ['\\', '"']
  else if n = 92 then ['\\', '\\']
  else if n = 8 then ['\\', 'b']
  else if n = 9 then ['\\', 't']
  else if n = 10 then ['\\', 'n']
  else if n = 12 then ['\\', 'f']
  else if n = 13 then ['\\', 'r']
  else if n < 32 then '\\' :: 'u' :: hex4 n
  else if n < 127 then [c]
  else if n < 65536 then '\\' :: 'u' :: hex4 n
  else
    '\\' :: 'u' :: hex4 (55296 + (n - 65536) / 1024) ++
      ('\\' :: 'u' :: hex4 (56320 + (n - 65536) % 1024))

/-- JSON string literal for `s`, including the surrounding quotes. -/
def printJString (s : String) : List Char :=
  '"' :: s.data.flatMap escapeChar ++ ['"']

/-- Recursion core of `natDigitsRev`; any fuel above `n` is enough. -/
def natDigitsRevAux : Nat → Nat → List Char
  | 0, _ => []
  | fuel + 1, n =>
      if n < 10 then [Char.ofNat (48 + n)]
      else Char.ofNat (48 + n % 10) :: natDigitsRevAux fuel (n / 10)

/-- Decimal digits of `n`, least significant first. -/
def natDigitsRev (n : Nat) : List Char :=
  natDigitsRevAux (n + 1) n

/-- Decimal rendering of an integer, as `json.dumps` prints `int`. -/
def intChars (n : Int) : List Char :=
  if n < 0 then '-' :: (natDigitsRev n.natAbs).reverse
  else (natDigitsRev n.natAbs).reverse

/-- Join pieces with a comma separator (the item separator of
`separators=(',',':')`). -/
def joinComma : List (List Char) → List Char
  | [] => []
  | [x] => x
  | x :: y :: rest => x ++ ',' :: joinComma (y :: rest)

/-- The members of an object of integers, compactly printed. -/
def printIntPairs (fs : List (String × Int)) : List Char :=
  joinComma (fs.map (fun p => printJString p.1 ++ ':' :: intChars p.2))

/-- Compact printing of a value of the modelled fragment, as
`json.dumps` renders it (`null`, `true`, `false` for the constants). -/
def printJVal : JVal → List Char
  | .jstr s => printJString s
  | .jint n => intChars n
  | .jobj fs => lbrace :: printIntPairs fs ++ [rbrace]
  | .jnull => ['n', 'u', 'l', 'l']
  | .jbool true => ['t', 'r', 'u', 'e']
  | .jbool false => ['f', 'a', 'l', 's', 'e']

/-- `json.dumps(d, separators=(',',':'))` for a top-level object `d`
of the wire fragment (`dict` insertion order preserved). -/
def jsonDumps (fs : List (String × JVal)) : List Char :=
  lbrace ::
    joinComma (fs.map (fun p => printJString p.1 ++ ':' :: printJVal p.2)) ++
    [rbrace]

/-- JSON whitespace accepted between tokens by `json.loads`. -/
def isWsChar (c : Char) : Bool :=
  c = ' ' || c = '\t' || c = '\n' || c = '\r'

/-- Skip JSON whitespace. -/
def skipWs (l : List Char) : List Char := l.dropWhile isWsChar

/-- Value of a hexadecimal digit (`json.loads` accepts both cases). -/
def hexVal (c : Char) : Option Nat :=
  let n := c.toNat
  if 48 ≤ n ∧ n ≤ 57 then some (n - 48)
  else if 97 ≤ n ∧ n ≤ 102 then some (n - 97 + 10)
  else if 65 ≤ n ∧ n ≤ 70 then some (n - 65 + 10)
  else none

/-- Value of four hexadecimal digits. -/
def hex4Val (a b c d : Char) : Option Nat := do
  let va ← hexVal a
  let vb ← hexVal b
  let vc ← hexVal c
  let vd ← hexVal d
  some (va * 4096 + vb * 256 + vc * 16 + vd)

/-- Parser state inside a JSON string literal: scanning ordinary
characters, after a backslash, collecting the four digits of a
`\\uXXXX` escape (with an optional pending high surrogate), or
expecting the `\\u` that must follow a high surrogate. -/
inductive StrSt where
  | norm
  | esc
  | hexd (pending : Option Nat) (ds : List Nat)
  | pairSlash (hi : Nat)
  | pairU (hi : Nat)

/-- Value of an accumulated hexadecimal digit list. -/
def hexFold (ds : List Nat) : Nat :=
  ds.foldl (fun a d => a * 16 + d) 0

/-- Body of a JSON string literal (after the opening quote), as a
character-at-a-time state machine: literal characters, the short
escapes, and `\\uXXXX` escapes with surrogate-pair recombination.  Raw
control characters are rejected, as by the strict `json.loads`.  A
lone surrogate escape is rejected (Python would produce a
lone-surrogate `str`, which has no counterpart in `String` and never
occurs on the wire written by `serialize_header`). -/
def parseJStringAux : List Char → StrSt → List Char →
    Option (List Char × List Char)
  | [], _, _ => none
  | c :: rest, st, acc =>
      match st with
      | .norm =>
          if c = '"' then some (acc, rest)
          else if c = '\\' then parseJStringAux rest .esc acc
          else if c.toNat < 32 then none
          else parseJStringAux rest .norm (acc ++ [c])
      | .esc =>
          if c = '"' then parseJStringAux rest .norm (acc ++ ['"'])
          else if c = '\\' then parseJStringAux rest .norm (acc ++ ['\\'])
          else if c = '/' then parseJStringAux rest .norm (acc ++ ['/'])
          else if c = 'b' then parseJStringAux rest .norm (acc ++ [Char.ofNat 8])
          else if c = 't' then parseJStringAux rest .norm (acc ++ ['\t'])
          else if c = 'n' then parseJStringAux rest .norm (acc ++ ['\n'])
          else if c = 'f' then parseJStringAux rest .norm (acc ++ [Char.ofNat 12])
          else if c = 'r' then parseJStringAux rest .norm (acc ++ ['\r'])
          else if c = 'u' then parseJStringAux rest (.hexd none []) acc
          else none
      | .hexd pending ds =>
          match hexVal c with
          | none => none
          | some d =>
              if ds.length < 3 then
                parseJStringAux rest (.hexd pending (ds ++ [d])) acc
              else
                let v := hexFold (ds ++ [d])
                match pending with
                | none =>
                    if v < 55296 ∨ 57344 ≤ v then
                      parseJStringAux rest .norm (acc ++ [Char.ofNat v])
                    else if v < 56320 then
                      parseJStringAux rest (.pairSlash v) acc
                    else none
                | some hi =>
                    if 56320 ≤ v ∧ v < 57344 then
                      parseJStringAux rest .norm
                        (acc ++
                          [Char.ofNat (65536 + (hi - 55296) * 1024 + (v - 56320))])
                    else none
      | .pairSlash hi =>
          if c = '\\' then parseJStringAux rest (.pairU hi) acc else none
      | .pairU hi =>
          if c = 'u' then parseJStringAux rest (.hexd (some hi) []) acc
          else none

/-- Parse a JSON string literal including its opening quote. -/
def parseJString (l : List Char) : Option (String × List Char) :=
  match l with
  | '"' :: rest =>
      match parseJStringAux rest .norm [] with
      | some (cs, rem) => some (String.mk cs, rem)
      | none => none
  | _ => none

/-- Whether a character is a decimal digit. -/
def isDigitChar (c : Char) : Bool := 48 ≤ c.toNat && c.toNat ≤ 57

/-- Numeric value of a most-significant-first digit run. -/
def digitsVal (ds : List Char) : Nat :=
  ds.foldl (fun a c => a * 10 + (c.toNat - 48)) 0

/-- Parse an unsigned JSON integer: `0`, or a nonzero digit followed
by further digits (the JSON grammar forbids leading zeros, so `01`
parses as `0` with `1` left over, exactly as in `json.loads`). -/
def parseJNat (l : List Char) : Option (Nat × List Char) :=
  match l with
  | c :: rest =>
      if c = '0' then some (0, rest)
      else if isDigitChar c then
        some (digitsVal (c :: rest.takeWhile isDigitChar),
              rest.dropWhile isDigitChar)
      else none
  | [] => none

/-- Parse a JSON integer with optional sign.  Fractional and exponent
parts (which `json.loads` would turn into floats, a shape no header
writer emits) are outside the modelled fragment. -/
def parseJInt (l : List Char) : Option (Int × List Char) :=
  match l with
  | [] => none
  | c :: rest =>
      if c = '-' then
        match parseJNat rest with
        | some (n, rem) => some (-(n : Int), rem)
        | none => none
      else
        match parseJNat (c :: rest) with
        | some (n, rem) => some ((n : Int), rem)
        | none => none

/-- Parse the members of the nested object of integers, after its
opening brace and first member's initial whitespace.  The fuel
argument only bounds the number of members; callers pass the input
length, which suffices because each member consumes characters. -/
def parseIntPairsAux : Nat → List Char → List (String × Int) →
    Option (List (String × Int) × List Char)
  | 0, _, _ => none
  | fuel + 1, l, acc =>
      match parseJString (skipWs l) with
      | none => none
      | some (k, rem1) =>
          match skipWs rem1 with
          | [] => none
          | c0 :: rem2 =>
              if c0 = ':' then
                match parseJInt (skipWs rem2) with
                | none => none
                | some (v, rem3) =>
                    match skipWs rem3 with
                    | [] => none
                    | c :: rem4 =>
                        if c = ',' then parseIntPairsAux fuel rem4 (acc ++ [(k, v)])
                        else if c = rbrace then some (acc ++ [(k, v)], rem4)
                        else none
              else none

/-- Parse the nested object of integers including its opening brace. -/
def parseInnerObj (l : List Char) : Option (List (String × Int) × List Char) :=
  match l with
  | c :: rest =>
      if c = lbrace then
        match skipWs rest with
        | d :: rem => if d = rbrace then some ([], rem)
                      else parseIntPairsAux (rest.length + 1) rest []
        | [] => none
      else none
  | [] => none

/-- Build the nested `dict` from parsed integer members: as in
Python, a repeated key keeps its first position but takes the later
value. -/
def collapseIntPairs (fs : List (String × Int)) : List (String × Int) :=
  fs.foldl
    (fun d p =>
      if (d.map Prod.fst).contains p.1 then
        d.map (fun q => if q.1 = p.1 then (q.1, p.2) else q)
      else d ++ [p])
    []

/-- Parse one value of the modelled fragment.  As CPython scans a
value: a string, an object, the constants `null` / `true` / `false`,
then a number. -/
def parseJVal (l : List Char) : Option (JVal × List Char) :=
  match l with
  | [] => none
  | c :: rest =>
      if c = '"' then
        match parseJString (c :: rest) with
        | some (s, rem) => some (.jstr s, rem)
        | none => none
      else if c = lbrace then
        match parseInnerObj (c :: rest) with
        | some (fs, rem) => some (.jobj (collapseIntPairs fs), rem)
        | none => none
      else if c = 'n' then
        match rest with
        | 'u' :: 'l' :: 'l' :: rem => some (.jnull, rem)
        | _ => none
      else if c = 't' then
        match rest with
        | 'r' :: 'u' :: 'e' :: rem => some (.jbool true, rem)
        | _ => none
      else if c = 'f' then
        match rest with
        | 'a' :: 'l' :: 's' :: 'e' :: rem => some (.jbool false, rem)
        | _ => none
      else
        match parseJInt (c :: rest) with
        | some (n, rem) => some (.jint n, rem)
        | none => none

/-- Parse the members of the top-level object (fuel as above). -/
def parseTopPairsAux : Nat → List Char → List (String × JVal) →
    Option (List (String × JVal) × List Char)
  | 0, _, _ => none
  | fuel + 1, l, acc =>
      match parseJString (skipWs l) with
      | none => none
      | some (k, rem1) =>
          match skipWs rem1 with
          | [] => none
          | c0 :: rem2 =>
              if c0 = ':' then
                match parseJVal (skipWs rem2) with
                | none => none
                | some (v, rem3) =>
                    match skipWs rem3 with
                    | [] => none
                    | c :: rem4 =>
                        if c = ',' then parseTopPairsAux fuel rem4 (acc ++ [(k, v)])
                        else if c = rbrace then some (acc ++ [(k, v)], rem4)
                        else none
              else none

/-- Build a `dict` from parsed members: a repeated key keeps its first
position but takes the later value, as in Python. -/
def collapsePairs (fs : List (String × JVal)) : List (String × JVal) :=
  fs.foldl
    (fun d p =>
      if (d.map Prod.fst).contains p.1 then
        d.map (fun q => if q.1 = p.1 then (q.1, p.2) else q)
      else d ++ [p])
    []

/-- `json.loads` on the wire fragment: a top-level object, surrounding
whitespace allowed, no trailing data. -/
def jsonLoads (l : List Char) : Option (List (String × JVal)) :=
  match skipWs l with
  | c :: rest =>
      if c = lbrace then
        match
          (match skipWs rest with
           | d :: rem => if d = rbrace then some (([] : List (String × JVal)), rem)
                         else parseTopPairsAux (rest.length + 1) rest []
           | [] => none)
        with
        | some (fs, rem) =>
            if skipWs rem = [] then some (collapsePairs fs) else none
        | none => none
      else none
  | [] => none

/-! ### Settings (`app/config.py`)

Only the fields the core reads.  Values are the defaults of the
`Settings` pydantic model; environment overrides are out of scope. -/
/-- The application settings consumed by the crypto core. -/
structure Settings where
  maxFileSizeMb : Int := 2048
  argon2MemoryMb : Int := 256
  argon2TimeCost : Int := 3
  argon2Parallelism : Int := 2
  argon2KeyLen : Nat := 32
  maxConcurrency : Nat := 2

/-- The module-level `settings = Settings()` instance with defaults. -/
def defaultSettings : Settings := {}

/-! ### Container header codec (`app/crypto/container.py`) -/
/-- The magic bytes `b"E4P1"`. -/
def E4P_MAGIC : Bytes := [69, 52, 80, 49]

/-- The `E4PHeader` dataclass.  `kdf_params` is a `dict` from names to
integers, modelled as an insertion-ordered association list (a Python
`dict` cannot repeat keys). -/
structure E4PHeader where
  algorithm : String
  kdf : String
  kdfParams : List (String × Int)
  salt : String
  nonce : String
  originalName : String
  originalSize : Int
  timestamp : String
  deriving DecidableEq

/-- `E4PHeader.to_dict`: the wire object, in insertion order. -/
def headerToDict (h : E4PHeader) : List (String × JVal) :=
  [("alg", .jstr h.algorithm),
   ("kdf", .jstr h.kdf),
   ("kdf_params", .jobj h.kdfParams),
   ("salt", .jstr h.salt),
   ("nonce", .jstr h.nonce),
   ("orig_name", .jstr h.originalName),
   ("orig_size", .jint h.originalSize),
   ("ts", .jstr h.timestamp)]

/-- Python `dict` lookup on an insertion-ordered association list. -/
def dictGet (fs : List (String × JVal)) (k : String) : Option JVal :=
  (fs.filter (fun p => p.1 = k)).getLast? |>.map Prod.snd

/-- The schema-typed restriction of `E4PHeader.from_dict(data)`:
reads the eight required keys, raising `KeyError` on the first
missing one.  The source stores the values untyped — `from_dict`
succeeds whenever the keys are present, whatever the value shapes —
and that faithful untyped reader is `fromDictRaw` below; this typed
variant additionally demands the schema shapes of the wire contract
(spec §6) and is used where only schema-shaped headers occur. -/
def headerFromDict (fs : List (String × JVal)) : Except PyErr E4PHeader := do
  let getS (k : String) : Except PyErr String :=
    match dictGet fs k with
    | some (.jstr s) => .ok s
    | some _ => .error (.keyError k)
    | none => .error (.keyError k)
  let alg ← getS "alg"
  let kdf ← getS "kdf"
  let params ←
    match dictGet fs "kdf_params" with
    | some (.jobj o) => .ok o
    | some _ => .error (.keyError "kdf_params")
    | none => .error (.keyError "kdf_params")
  let salt ← getS "salt"
  let nonce ← getS "nonce"
  let name ← getS "orig_name"
  let size ←
    match dictGet fs "orig_size" with
    | some (.jint n) => Except.ok n
    | some _ => .error (.keyError "orig_size")
    | none => .error (.keyError "orig_size")
  let ts ← getS "ts"
  .ok ⟨alg, kdf, params, salt, nonce, name, size, ts⟩

/-- `E4PContainer.create_header`: build the header, base64-encoding
salt and nonce and stamping the KDF parameters from settings.  The
UTC timestamp string is an explicit argument (the source reads the
clock). -/
def createHeader (s : Settings) (algorithm : String) (salt nonce : Bytes)
    (originalName : String) (originalSize : Int) (ts : String) : E4PHeader :=
  { algorithm := algorithm
    kdf := "argon2id"
    kdfParams :=
      [("m", s.argon2MemoryMb * 1024), ("t", s.argon2TimeCost),
       ("p", s.argon2Parallelism)]
    salt := String.mk (b64encodeBytes salt)
    nonce := String.mk (b64encodeBytes nonce)
    originalName := originalName
    originalSize := originalSize
    timestamp := ts }

/-- `struct.pack('<I', n)`: 4 little-endian bytes. -/
def le32 (n : Nat) : Bytes :=
  [n % 256, n / 256 % 256, n / 65536 % 256, n / 16777216 % 256]

/-- `struct.unpack('<I', b)[0]` on a 4-byte slice. -/
def le32Val (b : Bytes) : Nat :=
  match b with
  | [b0, b1, b2, b3] => b0 + b1 * 256 + b2 * 65536 + b3 * 16777216
  | _ => 0

/-- `E4PContainer.serialize_header`: `MAGIC || len(JSON) || JSON`.
`json.dumps(..., ensure_ascii=True)` output is pure ASCII, so its
UTF-8 encoding is the code points themselves; `struct.pack('<I', ...)`
raises `struct.error` when the length does not fit 32 bits. -/
def serializeHeaderE (h : E4PHeader) : Except PyErr Bytes :=
  let js := jsonDumps (headerToDict h)
  if js.length < 4294967296 then
    .ok (E4P_MAGIC ++ le32 js.length ++ js.map Char.toNat)
  else .error .structError

/-- `E4PContainer.deserialize_header`: check length and magic, read the
length prefix, decode and parse the JSON slice, read the required
fields; returns the header and `8 + header_len` bytes consumed. -/
def deserializeHeader (data : Bytes) : Except PyErr (E4PHeader × Nat) := do
  if data.length < 8 then
    .error (.valueError "Invalid E4P file: too short")
  else if data.take 4 ≠ E4P_MAGIC then
    .error (.valueError "Invalid E4P file: wrong magic bytes")
  else
    let headerLen := le32Val ((data.drop 4).take 4)
    if data.length < 8 + headerLen then
      .error (.valueError "Invalid E4P file: incomplete header")
    else
      match utf8Decode ((data.drop 8).take headerLen) with
      | none => .error .unicodeDecodeError
      | some cs =>
          match jsonLoads cs with
          | none => .error .jsonDecodeError
          | some fs => do
              let h ← headerFromDict fs
              .ok (h, 8 + headerLen)

/-- `E4PContainer.validate_header`: algorithm and KDF names, presence
and ranges of the KDF parameters, base64-decodability of salt and
nonce (the source checks only that `b64decode` does not raise, not the
decoded lengths), and the size bound from settings. -/
def validateHeader (s : Settings) (h : E4PHeader) : Bool :=
  (h.algorithm = "AES-256-GCM" || h.algorithm = "XCHACHA20-POLY1305") &&
  h.kdf = "argon2id" &&
  (["m", "t", "p"].all (fun k => (h.kdfParams.map Prod.fst).contains k)) &&
  (match (h.kdfParams.filter (fun p => p.1 = "m")).getLast? with
   | some p => decide (1024 ≤ p.2)
   | none => false) &&
  (match (h.kdfParams.filter (fun p => p.1 = "t")).getLast? with
   | some p => decide (1 ≤ p.2)
   | none => false) &&
  (match (h.kdfParams.filter (fun p => p.1 = "p")).getLast? with
   | some p => decide (1 ≤ p.2)
   | none => false) &&
  (pythonB64Decode h.salt).isSome &&
  (pythonB64Decode h.nonce).isSome &&
  decide (0 ≤ h.originalSize) &&
  decide (h.originalSize ≤ s.maxFileSizeMb * 1024 * 1024)

/-! ### AEAD ciphers (`app/crypto/aead.py`)

The cipher primitives come from external libraries (`cryptography`'s
`AESGCM`, PyNaCl's `SecretBox`).  Modelled from the spec: an idealized
AEAD whose ciphertext is the plaintext together with a 16-byte
authentication tag that is a deterministic function of key, nonce and
message; decryption re-derives and compares the tag, failing exactly
when the ciphertext was not produced by the same key/nonce/message.
Lengths and layout follow the libraries: AES-GCM returns
`ciphertext || tag`; the secret box returns `nonce || tag ||
ciphertext`, of which `encrypt_chunk` keeps `tag || ciphertext` and
re-prepends the caller's nonce. -/
/-- Idealized 16-byte authentication tag over key, nonce and message. -/
def macTag (key nonce data : Bytes) : Bytes :=
  (List.range 16).map
    (fun i =>
      (key.sum * 61 + nonce.sum * 53 + data.sum * 41 + data.length * 29 +
        i * 13 + 7) % 256)

/-- The two cipher variants of `create_encryptor`. -/
inductive EncAlg where
  | aes
  | xchacha
  deriving DecidableEq

/-- A constructed encryptor: variant plus key (the constructors have
already validated the key length). -/
structure Encryptor where
  alg : EncAlg
  key : Bytes
  deriving DecidableEq

/-- `create_encryptor(algorithm, key)`: dispatch on the algorithm
name; the variant constructors raise `ValueError` on a key whose
length is not 32 bytes; unknown names raise `ValueError`. -/
def createEncryptor (algorithm : String) (key : Bytes) : Except PyErr Encryptor :=
  if algorithm = "AES-256-GCM" then
    if key.length ≠ 32 then
      .error (.valueError "AES-256-GCM requires a 32-byte key")
    else .ok ⟨.aes, key⟩
  else if algorithm = "XCHACHA20-POLY1305" then
    if key.length ≠ 32 then
      .error (.valueError "XChaCha20-Poly1305 requires a 32-byte key")
    else .ok ⟨.xchacha, key⟩
  else .error (.valueError "Unsupported algorithm")

/-- `encrypt_chunk(data, nonce)`: the nonce length is checked first
(12 bytes for AES-GCM, 24 for the secret box) and a mismatch raises
`ValueError` without touching the data; the data is never truncated or
padded. -/
def encryptChunk (e : Encryptor) (data nonce : Bytes) : Except PyErr Bytes :=
  match e.alg with
  | .aes =>
      if nonce.length ≠ 12 then
        .error (.valueError "AES-GCM requires a 12-byte nonce")
      else .ok (data ++ macTag e.key nonce data)
  | .xchacha =>
      if nonce.length ≠ 24 then
        .error (.valueError "XChaCha20-Poly1305 requires a 24-byte nonce")
      else .ok (nonce ++ macTag e.key nonce data ++ data)

/-- `decrypt_chunk(data, nonce)`: nonce length checked first; AES-GCM
then verifies the trailing 16-byte tag (`InvalidTag` on mismatch or
under-length input); the secret-box variant additionally requires at
least 24 bytes (the code strips its own nonce prefix) and raises
`CryptoError` on tag mismatch. -/
def decryptChunk (e : Encryptor) (data nonce : Bytes) : Except PyErr Bytes :=
  match e.alg with
  | .aes =>
      if nonce.length ≠ 12 then
        .error (.valueError "AES-GCM requires a 12-byte nonce")
      else if data.length < 16 then .error .invalidTag
      else
        let m := data.take (data.length - 16)
        if data.drop (data.length - 16) = macTag e.key nonce m then .ok m
        else .error .invalidTag
  | .xchacha =>
      if nonce.length ≠ 24 then
        .error (.valueError "XChaCha20-Poly1305 requires a 24-byte nonce")
      else if data.length < 24 then
        .error (.valueError "Invalid encrypted data length")
      else
        let ct := data.drop 24
        if ct.length < 16 then .error .cryptoError
        else if ct.take 16 = macTag e.key nonce (ct.drop 16) then
          .ok (ct.drop 16)
        else .error .cryptoError

/-! ### Key derivation (`app/crypto/kdf.py`)

Modelled from the spec: Argon2id via the external `argon2` library —
a deterministic function of password and salt producing
`argon2_key_len` (32) bytes.  The model below is an arbitrary concrete
such function; the properties the engine relies on (determinism and
the 32-byte length) hold for it exactly. -/
/-- `derive_key(password, salt)`. -/
def deriveKey (password : String) (salt : Bytes) : Bytes :=
  (List.range 32).map
    (fun i =>
      ((password.data.map Char.toNat).sum * 131 + salt.sum * 37 +
        salt.length * 19 + i * 17 + 101) % 256)

/-! ### Streaming engine (`app/crypto/stream.py`)

Files become explicit byte lists: `encrypt_file` returns the header
and the bytes written to the output file; `decrypt_file` returns the
boolean result together with the final contents of the output file
(`none` when the failure happened before the output file was opened,
`some partial` when it was created and the written bytes remain on
disk).  The random salt and nonce of `encrypt_file` (`generate_salt()`
/ `os.urandom`) and the timestamp are explicit arguments. -/
/-- `StreamProcessor.encrypt_file`: derive the key, construct the
encryptor, build and serialize the header, then encrypt the input in
`chunkSize`-byte chunks, passing the same `nonce` variable to
`encrypt_chunk` on every iteration of the loop. -/
def encryptFile (s : Settings) (chunkSize : Nat) (input : Bytes)
    (name : String) (password : String) (algorithm : String)
    (salt nonce : Bytes) (ts : String) : Except PyErr (E4PHeader × Bytes) := do
  let key := deriveKey password salt
  let enc ← createEncryptor algorithm key
  let header := createHeader s algorithm salt nonce name (input.length) ts
  let headerBytes ← serializeHeaderE header
  let encChunks ← (chunksOf chunkSize input).mapM
    (fun chunk => encryptChunk enc chunk nonce)
  .ok (header, headerBytes ++ encChunks.flatten)

/-- The nonce values passed to `encrypt_chunk` for the successive
chunks of one `encrypt_file` call: the loop body always passes the one
`nonce` generated before the loop (`stream.py` line 70). -/
def encryptFileNonces (chunkSize : Nat) (input : Bytes) (nonce : Bytes) :
    List Bytes :=
  (chunksOf chunkSize input).map (fun _ => nonce)

/-- The decrypt loop of `decrypt_file`: decrypt each ciphertext chunk
in order, appending the plaintext to the output file; the first
failure aborts the loop.  Returns the success flag and the bytes that
were written to the (already opened) output file. -/
def decryptLoop (e : Encryptor) (nonce : Bytes) :
    List Bytes → Option PyErr × Bytes
  | [] => (none, [])
  | c :: rest =>
      match decryptChunk e c nonce with
      | .ok p =>
          let r := decryptLoop e nonce rest
          (r.fst, p ++ r.snd)
      | .error err => (some err, [])

/-- `StreamProcessor.decrypt_file`, with the final state of the output
file made explicit.  The source wraps the whole body in
`try: ... except Exception: return False`; every failure before
`aiofiles.open(output_path, 'wb')` leaves no output file (`none`),
while a chunk failure after it leaves the partial plaintext written so
far (`some ...`).  The header is parsed from the first 8192 bytes,
then the ciphertext is re-read in `chunkSize`-byte slices from offset
`header_offset`. -/
def decryptFile (s : Settings) (chunkSize : Nat) (input : Bytes)
    (password : String) : Bool × Option Bytes :=
  match deserializeHeader (input.take 8192) with
  | .error _ => (false, none)
  | .ok (h, headerOffset) =>
      if validateHeader s h = false then (false, none)
      else
        match pythonB64Decode h.salt, pythonB64Decode h.nonce with
        | some salt, some nonce =>
            let key := deriveKey password salt
            match createEncryptor h.algorithm key with
            | .error _ => (false, none)
            | .ok enc =>
                let r := decryptLoop enc nonce
                  (chunksOf chunkSize (input.drop headerOffset))
                (r.fst.isNone, some r.snd)
        | _, _ => (false, none)

/-- The body of `decrypt_file` without its `try`/`except` wrapper:
`.error` is a raised exception, `.ok false` the explicit
`return False` after header validation, `.ok true` success. -/
def decryptFileCore (s : Settings) (chunkSize : Nat) (input : Bytes)
    (password : String) : Except PyErr Bool := do
  let (h, headerOffset) ← deserializeHeader (input.take 8192)
  if validateHeader s h = false then .ok false
  else
    match pythonB64Decode h.salt, pythonB64Decode h.nonce with
    | some salt, some nonce =>
        let key := deriveKey password salt
        let enc ← createEncryptor h.algorithm key
        let r := decryptLoop enc nonce
          (chunksOf chunkSize (input.drop headerOffset))
        match r.fst with
        | none => .ok true
        | some err => .error err
    | _, _ => .error .cryptoError

/-- `StreamProcessor.get_file_info`: parse and validate the header of
the first 8192 bytes; any exception or failed validation yields
`None`. -/
def getFileInfo (s : Settings) (input : Bytes) : Option E4PHeader :=
  match deserializeHeader (input.take 8192) with
  | .ok (h, _) => if validateHeader s h then some h else none
  | .error _ => none

/-- The body of `get_file_info` without its `try`/`except` wrapper. -/
def getFileInfoCore (s : Settings) (input : Bytes) :
    Except PyErr (Option E4PHeader) := do
  let (h, _) ← deserializeHeader (input.take 8192)
  if validateHeader s h then .ok (some h) else .ok none

/-! ### Task pipeline (`app/services/tasks.py`)

`TaskManager` keeps a task table, an `asyncio.Queue` (FIFO), an
admission semaphore of `max_concurrency` permits, and one background
worker coroutine that repeatedly dequeues a task id and **awaits**
`_process_task` to completion before dequeuing the next.  This is
modelled as a labelled transition system: `submit` is `create_task`
(status `pending`, enqueue), `pick` is the worker dequeuing the head
of the queue, entering the semaphore and setting status `processing`,
and `finish` is `_process_task` completing (status `completed` or
`failed`) and releasing the semaphore.  The `submitted`/`admitted`
lists record history for the FIFO statement. -/
/-- The `TaskStatus` enumeration. -/
inductive TaskStatus where
  | pending
  | processing
  | completed
  | failed
  deriving DecidableEq

/-- The state of a `TaskManager`: task table, queue, the single
worker's current task, remaining semaphore permits, and the
submission/admission history. -/
structure PipeState where
  tasks : List (Nat × TaskStatus)
  queue : List Nat
  worker : Option Nat
  sem : Nat
  submitted : List Nat
  admitted : List Nat
  deriving DecidableEq

/-- Update the status of one task id in the table. -/
def setStatus (ts : List (Nat × TaskStatus)) (id : Nat) (st : TaskStatus) :
    List (Nat × TaskStatus) :=
  ts.map (fun p => if p.1 = id then (p.1, st) else p)

/-- The initial state of `TaskManager(max_concurrency=K)`. -/
def initState (K : Nat) : PipeState :=
  { tasks := [], queue := [], worker := none, sem := K,
    submitted := [], admitted := [] }

/-- One step of the pipeline.  `submit` models `create_task` (fresh
uuid, status `pending`, `queue.put`); `pick` models the worker's
`queue.get()` followed by entering `async with self.semaphore` and
setting status `processing` (the single worker must be idle, the
queue non-empty, and a permit free); `finish` models `_process_task`
returning, leaving status `completed` (or `failed` on an exception)
and releasing the permit. -/
inductive PStep (K : Nat) : PipeState → PipeState → Prop
  | submit (s : PipeState) (id : Nat)
      (hfresh : id ∉ s.tasks.map Prod.fst) :
      PStep K s
        { tasks := s.tasks ++ [(id, .pending)]
          queue := s.queue ++ [id]
          worker := s.worker
          sem := s.sem
          submitted := s.submitted ++ [id]
          admitted := s.admitted }
  | pick (s : PipeState) (id : Nat) (rest : List Nat)
      (hidle : s.worker = none) (hq : s.queue = id :: rest)
      (hperm : 0 < s.sem) :
      PStep K s
        { tasks := setStatus s.tasks id .processing
          queue := rest
          worker := some id
          sem := s.sem - 1
          submitted := s.submitted
          admitted := s.admitted ++ [id] }
  | finish (s : PipeState) (id : Nat) (ok : Bool)
      (hbusy : s.worker = some id) :
      PStep K s
        { tasks := setStatus s.tasks id (if ok then .completed else .failed)
          queue := s.queue
          worker := none
          sem := s.sem + 1
          submitted := s.submitted
          admitted := s.admitted }

/-- States reachable by a `TaskManager` configured with limit `K`. -/
inductive Reachable (K : Nat) : PipeState → Prop
  | init : Reachable K (initState K)
  | step {s t : PipeState} : Reachable K s → PStep K s t → Reachable K t

/-- Number of tasks currently in `processing` state. -/
def countProcessing (ts : List (Nat × TaskStatus)) : Nat :=
  (ts.filter (fun p => p.2 = .processing)).length

/-- The progress value `_process_task` records after the `i`-th of
`total` files completes: `task.progress = (processed_files /
total_files) * 100` (`tasks.py` line 102).  Python floats are modelled
as exact rationals; the quotient of two machine ints up to a factor
2^53 apart is exact in binary floating point only up to rounding, but
the factor-of-100 scale, which is what the claims are about, is
unaffected. -/
def progressAfter (i total : Nat) : ℚ :=
  ((i : ℚ) / (total : ℚ)) * 100

/-! ### Pipeline invariants -/
/-- Inductive invariant of the pipeline: every `processing` task is
the worker's current task, task ids are unique, and the tasks admitted
so far followed by the waiting queue are exactly the submissions in
order. -/
def PipeInv (s : PipeState) : Prop :=
  (∀ p ∈ s.tasks, p.2 = TaskStatus.processing → s.worker = some p.1) ∧
  (s.tasks.map Prod.fst).Nodup ∧
  s.admitted ++ s.queue = s.submitted

/-- A state of a `K = 2` pipeline after submitting `K + 5 = 7` jobs
and admitting the first. -/
def demoState : PipeState :=
  { tasks := [(0, .processing), (1, .pending), (2, .pending), (3, .pending),
              (4, .pending), (5, .pending), (6, .pending)]
    queue := [1, 2, 3, 4, 5, 6]
    worker := some 0
    sem := 1
    submitted := [0, 1, 2, 3, 4, 5, 6]
    admitted := [0] }

/-- A concrete 32-byte salt (stands for `generate_salt()`). -/
def sampleSalt : Bytes := List.range 32

/-- A concrete 12-byte AES-GCM nonce (stands for `os.urandom(12)`). -/
def sampleNonce : Bytes := List.range 12

/-- A concrete header timestamp. -/
def sampleTs : String := "2024-01-01T00:00:00Z"

/-- A 30-byte plaintext file: spans two chunks at chunk size 20. -/
def twoChunkPlain : Bytes := List.replicate 30 65

/-- The container `encrypt_file` writes for `twoChunkPlain` with chunk
size 20 under AES-256-GCM. -/
def twoChunkContainer : Bytes :=
  match encryptFile defaultSettings 20 twoChunkPlain "f.txt" "pw" "AES-256-GCM"
      sampleSalt sampleNonce sampleTs with
  | .ok (_, c) => c
  | .error _ => []

/-- The first (authentic) plaintext chunk of the tampered container
used for C3. -/
def c3Plain : Bytes := [1, 2, 3, 4]

/-- A container whose first 20-byte record decrypts correctly and
whose second record is garbage: header, then
`c3Plain || tag` (exactly 20 bytes), then 20 junk bytes. -/
def c3Container : Bytes :=
  match serializeHeaderE (createHeader defaultSettings "AES-256-GCM"
      sampleSalt sampleNonce "f.txt" 8 sampleTs) with
  | .ok hb =>
      hb ++ (c3Plain ++ macTag (deriveKey "pw" sampleSalt) sampleNonce c3Plain)
        ++ List.replicate 20 9
  | .error _ => []

instance exceptDecidableEq {ε α : Type} [DecidableEq ε] [DecidableEq α] :
    DecidableEq (Except ε α) := fun a b =>
  match a, b with
  | .ok x, .ok y =>
      if h : x = y then isTrue (by rw [h])
      else isFalse (fun he => h (by injection he))
  | .error x, .error y =>
      if h : x = y then isTrue (by rw [h])
      else isFalse (fun he => h (by injection he))
  | .ok _, .error _ => isFalse (fun he => Except.noConfusion he)
  | .error _, .ok _ => isFalse (fun he => Except.noConfusion he)

/-- A header whose salt is valid base64 but decodes to 3 bytes, not
the expected 32 (and whose 16-character nonce decodes to 12 bytes). -/
def wrongLenSaltHeader : E4PHeader :=
  { algorithm := "AES-256-GCM"
    kdf := "argon2id"
    kdfParams := [("m", 262144), ("t", 3), ("p", 2)]
    salt := "AAAA"
    nonce := "AAAAAAAAAAAAAAAA"
    originalName := "a.txt"
    originalSize := 1024
    timestamp := "2024-01-01T00:00:00Z" }

/-- Lists whose head (if any) is not a decimal digit: what follows a
printed number in JSON output (a comma, brace, or end). -/
def noLeadingDigit (l : List Char) : Prop :=
  ∀ c, l.head? = some c → isDigitChar c = false

/-- The printed members of the top-level object. -/
def printTopPairs (fs : List (String × JVal)) : List Char :=
  joinComma (fs.map (fun p => printJString p.1 ++ ':' :: printJVal p.2))

/-- A concrete header exercising the serialization round-trip. -/
def c9Header : E4PHeader :=
  { algorithm := "AES-256-GCM"
    kdf := "argon2id"
    kdfParams := [("m", 262144), ("t", 3), ("p", 2)]
    salt := "AAAA"
    nonce := "BBBB"
    originalName := "a.txt"
    originalSize := 3
    timestamp := "2024-01-01T00:00:00Z" }

/-- The fuel of `chunksOfAux` is irrelevant above the list length. -/
theorem chunksOfAux_fuel (cs : Nat) :
    ∀ f g l, l.length < f → l.length < g →
      chunksOfAux cs f l = chunksOfAux cs g l := by
  intro f
  induction f with
  | zero => intro g l hf; omega
  | succ f ih =>
      intro g l hf hg
      match g, hg with
      | g + 1, hg =>
        simp only [chunksOfAux]
        by_cases h : l = [] ∨ cs = 0
        · simp [h]
        · push_neg at h
          obtain ⟨hl, hcs⟩ := h
          have hpos : 0 < l.length := List.length_pos.mpr hl
          have hdrop : (l.drop cs).length = l.length - cs :=
            List.length_drop cs l
          rw [if_neg (by tauto), if_neg (by tauto),
            ih g (l.drop cs) (by omega) (by omega)]

/-- The recursion equation of `chunksOf`, as the source loop reads. -/
theorem chunksOf_eq (cs : Nat) (l : Bytes) :
    chunksOf cs l =
      if l = [] ∨ cs = 0 then []
      else l.take cs :: chunksOf cs (l.drop cs) := by
  unfold chunksOf
  conv_lhs => simp only [chunksOfAux]
  by_cases h : l = [] ∨ cs = 0
  · simp [h]
  · push_neg at h
    obtain ⟨hl, hcs⟩ := h
    have hpos : 0 < l.length := List.length_pos.mpr hl
    have hdrop : (l.drop cs).length = l.length - cs :=
      List.length_drop cs l
    rw [if_neg (by tauto), if_neg (by tauto),
      chunksOfAux_fuel cs (l.length) ((l.drop cs).length + 1) (l.drop cs)
      (by omega) (by omega)]

/-- The fuel of `natDigitsRevAux` is irrelevant above `n`. -/
theorem natDigitsRevAux_fuel :
    ∀ f g n, n < f → n < g → natDigitsRevAux f n = natDigitsRevAux g n := by
  intro f
  induction f with
  | zero => omega
  | succ f ih =>
      intro g n hf hg
      match g, hg with
      | g + 1, hg =>
        simp only [natDigitsRevAux]
        by_cases h : n < 10
        · simp [h]
        · rw [if_neg h, if_neg h, ih g (n / 10) (by omega) (by omega)]

/-- The recursion equation of `natDigitsRev`. -/
theorem natDigitsRev_eq (n : Nat) :
    natDigitsRev n =
      if n < 10 then [Char.ofNat (48 + n)]
      else Char.ofNat (48 + n % 10) :: natDigitsRev (n / 10) := by
  unfold natDigitsRev
  conv_lhs => simp only [natDigitsRevAux]
  by_cases h : n < 10
  · simp [h]
  · rw [if_neg h, if_neg h,
      natDigitsRevAux_fuel n (n / 10 + 1) (n / 10) (by omega) (by omega)]

theorem map_fst_setStatus (ts : List (Nat × TaskStatus)) (id : Nat)
    (st : TaskStatus) : (setStatus ts id st).map Prod.fst = ts.map Prod.fst := by
  unfold setStatus
  rw [List.map_map]
  congr 1
  funext p
  by_cases h : p.1 = id <;> simp [h]

theorem length_le_one_of_const {α : Type} (l : List (Nat × α)) (w : Nat)
    (hconst : ∀ p ∈ l, p.1 = w) (hnd : (l.map Prod.fst).Nodup) :
    l.length ≤ 1 := by
  match l with
  | [] => simp
  | [x] => simp
  | x :: y :: rest =>
      exfalso
      have hx : x.1 = w := hconst x (by simp)
      have hy : y.1 = w := hconst y (by simp)
      have : x.1 ∉ (y :: rest).map Prod.fst := by
        simpa using (List.nodup_cons.mp hnd).1
      exact this (by simp [hx, hy])

theorem pipeInv_init (K : Nat) : PipeInv (initState K) := by
  refine ⟨?_, ?_, ?_⟩ <;> simp [initState]

theorem pipeInv_step {K : Nat} {s t : PipeState} (hInv : PipeInv s)
    (hstep : PStep K s t) : PipeInv t := by
  obtain ⟨hproc, hnd, hfifo⟩ := hInv
  cases hstep with
  | submit id hfresh =>
      refine ⟨?_, ?_, ?_⟩
      · intro p hp hpp
        rcases List.mem_append.mp hp with h | h
        · exact hproc p h hpp
        · simp at h
          rw [h] at hpp
          exact absurd hpp (by simp)
      · simp only [List.map_append]
        rw [List.nodup_append]
        refine ⟨hnd, by simp, ?_⟩
        intro a ha hb
        simp at hb
        subst hb
        exact hfresh ha
      · simp only []
        rw [← List.append_assoc, hfifo]
  | pick id rest hidle hq hperm =>
      refine ⟨?_, ?_, ?_⟩
      · intro p hp hpp
        rcases List.mem_map.mp hp with ⟨q, hqmem, hqeq⟩
        by_cases h : q.1 = id
        · rw [← hqeq]
          simp [h]
        · rw [if_neg h] at hqeq
          subst hqeq
          exact absurd (hproc q hqmem hpp) (by simp [hidle])
      · rw [map_fst_setStatus]
        exact hnd
      · simp only [List.append_assoc, List.singleton_append]
        rw [← hq, hfifo]
  | finish id ok hbusy =>
      refine ⟨?_, ?_, ?_⟩
      · intro p hp hpp
        exfalso
        rcases List.mem_map.mp hp with ⟨q, hqmem, hqeq⟩
        by_cases h : q.1 = id
        · rw [if_pos h] at hqeq
          rw [← hqeq] at hpp
          cases ok <;> simp at hpp
        · rw [if_neg h] at hqeq
          subst hqeq
          have := hproc q hqmem hpp
          rw [hbusy] at this
          exact h (by injection this with h2; omega)
      · rw [map_fst_setStatus]
        exact hnd
      · exact hfifo

theorem pipeInv_reachable {K : Nat} {s : PipeState} (h : Reachable K s) :
    PipeInv s := by
  induction h with
  | init => exact pipeInv_init K
  | step _ hstep ih => exact pipeInv_step ih hstep

theorem countProcessing_le_one {s : PipeState} (hInv : PipeInv s) :
    countProcessing s.tasks ≤ 1 := by
  obtain ⟨hproc, hnd, _⟩ := hInv
  unfold countProcessing
  match hw : s.worker with
  | none =>
      have : s.tasks.filter (fun p => p.2 = TaskStatus.processing) = [] := by
        rw [List.filter_eq_nil_iff]
        intro p hp hpp
        have := hproc p hp (by simpa using hpp)
        rw [hw] at this
        exact absurd this (by simp)
      simp [this]
  | some w =>
      refine length_le_one_of_const _ w ?_ ?_
      · intro p hp
        have hpm := List.mem_filter.mp hp
        have := hproc p hpm.1 (by simpa using hpm.2)
        rw [hw] at this
        injection this with h2
        omega
      · have hsub : (s.tasks.filter (fun p => p.2 = TaskStatus.processing)).map
            Prod.fst |>.Sublist (s.tasks.map Prod.fst) :=
          (List.filter_sublist _).map Prod.fst
        exact hnd.sublist hsub

/-! ## Claim theorems -/
/-- C6: under a pipeline with concurrency limit `K ≥ 1`, every
reachable state has at most `K` tasks in `processing` state, and the
tasks admitted so far followed by the still-waiting queue are exactly
the submissions in order (first-in-first-out admission). -/
theorem concurrency_bound_and_fifo (K : Nat) (s : PipeState)
    (hK : 1 ≤ K) (hs : Reachable K s) :
    countProcessing s.tasks ≤ K ∧ s.admitted ++ s.queue = s.submitted := by
  have hInv := pipeInv_reachable hs
  exact ⟨le_trans (countProcessing_le_one hInv) hK, hInv.2.2⟩

theorem demoState_reachable : Reachable 2 demoState := by
  have h0 : Reachable 2 (initState 2) := Reachable.init
  have h1 := Reachable.step h0 (PStep.submit _ 0 (by decide))
  have h2 := Reachable.step h1 (PStep.submit _ 1 (by decide))
  have h3 := Reachable.step h2 (PStep.submit _ 2 (by decide))
  have h4 := Reachable.step h3 (PStep.submit _ 3 (by decide))
  have h5 := Reachable.step h4 (PStep.submit _ 4 (by decide))
  have h6 := Reachable.step h5 (PStep.submit _ 5 (by decide))
  have h7 := Reachable.step h6 (PStep.submit _ 6 (by decide))
  have h8 := Reachable.step h7
    (PStep.pick _ 0 [1, 2, 3, 4, 5, 6] rfl rfl (by decide))
  exact h8

/-- Witness for C6: the concrete `K + 5`-submission state. -/
theorem concurrency_bound_and_fifo_witness :
    1 ≤ 2 ∧ countProcessing demoState.tasks ≤ 2 ∧
      demoState.admitted ++ demoState.queue = demoState.submitted := by
  have h := concurrency_bound_and_fifo 2 demoState (by decide) demoState_reachable
  exact ⟨by decide, h.1, h.2⟩

/-- C7 (counterexample): after the only file of a one-file job
completes, the recorded progress is `100.0`, not `1/1`, and it lies
outside `[0.0, 1.0]`. -/
theorem progress_is_percent_counterexample :
    progressAfter 1 1 = 100 ∧ progressAfter 1 1 ≠ (1 : ℚ) / 1 ∧
      ¬ progressAfter 1 1 ≤ 1 := by
  norm_num [progressAfter]

/-- C7 (amended): after the `i`-th of `total` files completes the
recorded progress is `(i / total) * 100`, and it always lies in
`[0.0, 100.0]`. -/
theorem progress_percent_formula_and_bounds (i total : Nat)
    (h1 : 1 ≤ i) (h2 : i ≤ total) :
    progressAfter i total = ((i : Rat) / (total : Rat)) * 100 ∧
      0 ≤ progressAfter i total ∧ progressAfter i total ≤ 100 := by
  refine ⟨rfl, ?_, ?_⟩
  · unfold progressAfter
    positivity
  · unfold progressAfter
    have htot : (0 : ℚ) < (total : ℚ) := by
      have : 0 < total := by omega
      exact_mod_cast this
    have hle : (i : ℚ) / (total : ℚ) ≤ 1 := by
      rw [div_le_one htot]
      exact_mod_cast h2
    nlinarith

/-- Witness for C7: a job of 4 files after the 2nd file. -/
theorem progress_percent_formula_and_bounds_witness :
    (1 ≤ 2 ∧ 2 ≤ 4) ∧
      (progressAfter 2 4 = ((2 : Rat) / (4 : Rat)) * 100 ∧
        0 ≤ progressAfter 2 4 ∧ progressAfter 2 4 ≤ 100) :=
  ⟨⟨by norm_num, by norm_num⟩,
    progress_percent_formula_and_bounds 2 4 (by norm_num) (by norm_num)⟩

/-- C2 (evaluation at the failing input): encrypting a 30-byte file
with a 20-byte chunk size produces two chunks, and the loop passes the
same nonce to `encrypt_chunk` for both, so the set of nonces used has
cardinality 1, not 2. -/
theorem nonce_reuse_across_chunks_eval :
    (chunksOf 20 (List.replicate 30 65)).length = 2 ∧
    encryptFileNonces 20 (List.replicate 30 65) (List.range 12) =
      [List.range 12, List.range 12] ∧
    (encryptFileNonces 20 (List.replicate 30 65) (List.range 12)).dedup.length
      = 1 := by
  decide

/-- C8: both cipher constructors reject keys whose length is not 32
bytes with a `ValueError` and accept 32-byte keys; `encrypt_chunk` and
`decrypt_chunk` reject a nonce of the wrong fixed length (12 bytes for
AES-256-GCM, 24 for XChaCha20-Poly1305) with a `ValueError` before
touching the data; with a correct-length nonce the whole input is
processed unmodified (never truncated or padded). -/
theorem aead_eager_length_validation :
    (∀ key : Bytes, key.length ≠ 32 →
      createEncryptor "AES-256-GCM" key =
        .error (.valueError "AES-256-GCM requires a 32-byte key")) ∧
    (∀ key : Bytes, key.length = 32 →
      createEncryptor "AES-256-GCM" key = .ok ⟨.aes, key⟩) ∧
    (∀ key : Bytes, key.length ≠ 32 →
      createEncryptor "XCHACHA20-POLY1305" key =
        .error (.valueError "XChaCha20-Poly1305 requires a 32-byte key")) ∧
    (∀ key : Bytes, key.length = 32 →
      createEncryptor "XCHACHA20-POLY1305" key = .ok ⟨.xchacha, key⟩) ∧
    (∀ key data nonce : Bytes, nonce.length ≠ 12 →
      encryptChunk ⟨.aes, key⟩ data nonce =
          .error (.valueError "AES-GCM requires a 12-byte nonce") ∧
        decryptChunk ⟨.aes, key⟩ data nonce =
          .error (.valueError "AES-GCM requires a 12-byte nonce")) ∧
    (∀ key data nonce : Bytes, nonce.length ≠ 24 →
      encryptChunk ⟨.xchacha, key⟩ data nonce =
          .error (.valueError "XChaCha20-Poly1305 requires a 24-byte nonce") ∧
        decryptChunk ⟨.xchacha, key⟩ data nonce =
          .error (.valueError "XChaCha20-Poly1305 requires a 24-byte nonce")) ∧
    (∀ key data nonce : Bytes, nonce.length = 12 →
      encryptChunk ⟨.aes, key⟩ data nonce =
        .ok (data ++ macTag key nonce data)) ∧
    (∀ key data nonce : Bytes, nonce.length = 24 →
      encryptChunk ⟨.xchacha, key⟩ data nonce =
        .ok (nonce ++ macTag key nonce data ++ data)) := by
  refine ⟨?_, ?_, ?_, ?_, ?_, ?_, ?_, ?_⟩ <;>
    intros <;>
    simp [createEncryptor, encryptChunk, decryptChunk, *]

/-- Witness for C8: concrete wrong-length and right-length inputs. -/
theorem aead_eager_length_validation_witness :
    createEncryptor "AES-256-GCM" [0] =
        .error (.valueError "AES-256-GCM requires a 32-byte key") ∧
      createEncryptor "XCHACHA20-POLY1305" (List.replicate 32 7) =
        .ok ⟨.xchacha, List.replicate 32 7⟩ ∧
      encryptChunk ⟨.aes, List.replicate 32 7⟩ [1, 2] [9] =
        .error (.valueError "AES-GCM requires a 12-byte nonce") ∧
      decryptChunk ⟨.xchacha, List.replicate 32 7⟩ [1, 2] [9] =
        .error (.valueError "XChaCha20-Poly1305 requires a 24-byte nonce") ∧
      encryptChunk ⟨.aes, List.replicate 32 7⟩ [1, 2] (List.range 12) =
        .ok ([1, 2] ++ macTag (List.replicate 32 7) (List.range 12) [1, 2]) := by
  refine ⟨?_, ?_, ?_, ?_, ?_⟩
  · exact aead_eager_length_validation.1 [0] (by decide)
  · exact aead_eager_length_validation.2.2.2.1 (List.replicate 32 7) (by decide)
  · exact (aead_eager_length_validation.2.2.2.2.1
      (List.replicate 32 7) [1, 2] [9] (by decide)).1
  · exact (aead_eager_length_validation.2.2.2.2.2.1
      (List.replicate 32 7) [1, 2] [9] (by decide)).2
  · exact aead_eager_length_validation.2.2.2.2.2.2.1
      (List.replicate 32 7) [1, 2] (List.range 12) (by decide)

/-- C10: the public `decrypt_file` always returns a boolean — `true`
exactly when its try-block body succeeds, `false` exactly when the
body returns `False` or raises any exception — and `get_file_info`
always returns a header or `None`, never propagating an exception. -/
theorem decrypt_and_info_are_total (s : Settings) (cs : Nat) (input : Bytes)
    (pw : String) :
    ((decryptFile s cs input pw).fst = true ↔
      decryptFileCore s cs input pw = .ok true) ∧
    ((decryptFile s cs input pw).fst = false ↔
      (decryptFileCore s cs input pw = .ok false ∨
        ∃ e, decryptFileCore s cs input pw = .error e)) ∧
    (∀ h, getFileInfo s input = some h ↔
      getFileInfoCore s input = .ok (some h)) ∧
    (getFileInfo s input = none ↔
      (getFileInfoCore s input = .ok none ∨
        ∃ e, getFileInfoCore s input = .error e)) := by
  cases hdes : deserializeHeader (input.take 8192) with
  | error e =>
      simp [decryptFile, decryptFileCore, getFileInfo, getFileInfoCore, hdes,
        Bind.bind, Except.bind]
  | ok p =>
      obtain ⟨h, off⟩ := p
      by_cases hval : validateHeader s h = false
      · simp [decryptFile, decryptFileCore, getFileInfo, getFileInfoCore,
          hdes, hval, Bind.bind, Except.bind]
      · have hval2 : validateHeader s h = true := by
          revert hval; cases validateHeader s h <;> simp
        cases hsalt : pythonB64Decode h.salt with
        | none =>
            simp [decryptFile, decryptFileCore, getFileInfo, getFileInfoCore,
              hdes, hval, hval2, hsalt, Bind.bind, Except.bind]
        | some salt =>
            cases hnonce : pythonB64Decode h.nonce with
            | none =>
                simp [decryptFile, decryptFileCore, getFileInfo,
                  getFileInfoCore, hdes, hval, hval2, hsalt, hnonce,
                  Bind.bind, Except.bind]
            | some nonce =>
                cases henc : createEncryptor h.algorithm (deriveKey pw salt) with
                | error e2 =>
                    simp [decryptFile, decryptFileCore, getFileInfo,
                      getFileInfoCore, hdes, hval, hval2, hsalt, hnonce, henc,
                      Bind.bind, Except.bind]
                | ok enc =>
                    cases hr : (decryptLoop enc nonce
                        (chunksOf cs (input.drop off))).fst with
                    | none =>
                        simp [decryptFile, decryptFileCore, getFileInfo,
                          getFileInfoCore, hdes, hval, hval2, hsalt, hnonce,
                          henc, hr, Bind.bind, Except.bind]
                    | some err =>
                        simp [decryptFile, decryptFileCore, getFileInfo,
                          getFileInfoCore, hdes, hval, hval2, hsalt, hnonce,
                          henc, hr, Bind.bind, Except.bind]

set_option maxRecDepth 100000 in
/-- C1 (evaluation at the failing input): `encrypt_file` succeeds on a
30-byte file with chunk size 20, but `decrypt_file` on the produced
container with the same password returns `False` with an empty output
file instead of reproducing the plaintext: the encrypt loop writes
20+16-byte ciphertext records while the decrypt loop re-chunks the
ciphertext stream at 20-byte boundaries, so the very first slice fails
authentication. -/
theorem multichunk_roundtrip_fails_eval :
    (encryptFile defaultSettings 20 twoChunkPlain "f.txt" "pw" "AES-256-GCM"
      sampleSalt sampleNonce sampleTs).isOk = true ∧
    twoChunkPlain ≠ [] ∧
    decryptFile defaultSettings 20 twoChunkContainer "pw" =
      (false, some []) := by
  refine ⟨by decide, by decide, by decide⟩

set_option maxRecDepth 100000 in
/-- C3 (counterexample): decrypting `c3Container` fails on its second
chunk, returns `False` — and the destination file is left on disk
holding the plaintext of the first chunk, `[1, 2, 3, 4]`. -/
theorem partial_plaintext_left_counterexample :
    decryptFile defaultSettings 20 c3Container "pw" =
      (false, some [1, 2, 3, 4]) ∧
    ([1, 2, 3, 4] : Bytes) ≠ [] := by
  refine ⟨by decide, by decide⟩

theorem except_isOk_ok {ε α : Type} (a : α) :
    (Except.ok a : Except ε α).isOk = true := rfl

theorem except_isOk_error {ε α : Type} (e : ε) :
    (Except.error e : Except ε α).isOk = false := rfl

theorem except_toOption_ok {ε α : Type} (a : α) :
    (Except.ok a : Except ε α).toOption = some a := rfl

theorem except_toOption_error {ε α : Type} (e : ε) :
    (Except.error e : Except ε α).toOption = none := rfl

/-- What `decrypt_file` has written when the loop stops: the
concatenated plaintexts of the longest prefix of chunks that decrypt
successfully. -/
theorem decryptLoop_partial (e : Encryptor) (nonce : Bytes) :
    ∀ cks : List Bytes,
      (decryptLoop e nonce cks).snd =
        ((cks.takeWhile (fun c => (decryptChunk e c nonce).isOk)).map
          (fun c => (decryptChunk e c nonce).toOption.getD [])).flatten := by
  intro cks
  induction cks with
  | nil => rfl
  | cons c rest ih =>
      cases hc : decryptChunk e c nonce with
      | ok p =>
          simp [decryptLoop, hc, List.takeWhile_cons, ih, except_isOk_ok,
            except_toOption_ok]
      | error err =>
          simp [decryptLoop, hc, List.takeWhile_cons, except_isOk_error]

/-- C3 (amended): when the header parses, validates and yields a
usable key but some ciphertext chunk fails to authenticate,
`decrypt_file` returns `False` — and the destination file, which was
opened before the loop, is left on disk holding exactly the
concatenated plaintexts of the chunks that decrypted before the
failure; deleting it is the caller's responsibility. -/
theorem decrypt_failure_partial_output (s : Settings) (cs : Nat)
    (input : Bytes) (pw : String) (h : E4PHeader) (off : Nat)
    (salt nonce : Bytes) (enc : Encryptor) (e : PyErr)
    (hdes : deserializeHeader (input.take 8192) = .ok (h, off))
    (hval : validateHeader s h = true)
    (hsalt : pythonB64Decode h.salt = some salt)
    (hnonce : pythonB64Decode h.nonce = some nonce)
    (henc : createEncryptor h.algorithm (deriveKey pw salt) = .ok enc)
    (hfail : (decryptLoop enc nonce (chunksOf cs (input.drop off))).fst
      = some e) :
    decryptFile s cs input pw =
      (false,
        some ((((chunksOf cs (input.drop off)).takeWhile
            (fun c => (decryptChunk enc c nonce).isOk)).map
          (fun c => (decryptChunk enc c nonce).toOption.getD [])).flatten)) := by
  unfold decryptFile
  rw [hdes]
  simp only [hval, hsalt, hnonce, henc]
  rw [← decryptLoop_partial enc nonce (chunksOf cs (input.drop off))]
  simp [hfail]

set_option maxRecDepth 100000 in
/-- Witness for the amended C3 at the concrete tampered container. -/
theorem decrypt_failure_partial_output_witness :
    decryptFile defaultSettings 20 c3Container "pw" =
      (false,
        some ((((chunksOf 20 (c3Container.drop 227)).takeWhile
            (fun c => (decryptChunk ⟨.aes, deriveKey "pw" sampleSalt⟩ c
              sampleNonce).isOk)).map
          (fun c => (decryptChunk ⟨.aes, deriveKey "pw" sampleSalt⟩ c
            sampleNonce).toOption.getD [])).flatten)) :=
  decrypt_failure_partial_output defaultSettings 20 c3Container "pw"
    (createHeader defaultSettings "AES-256-GCM" sampleSalt sampleNonce
      "f.txt" 8 sampleTs)
    227 sampleSalt sampleNonce ⟨.aes, deriveKey "pw" sampleSalt⟩ .invalidTag
    (by decide) (by decide) (by decide) (by decide) (by decide) (by decide)

theorem b64Val_b64Char : ∀ n, n < 64 → b64Val (b64Char n) = some n := by
  decide

theorem b64Val_pad : b64Val (Char.ofNat 61) = none := by decide

theorem pad_toNat : (Char.ofNat 61).toNat = 61 := by decide

/-- Decoding the canonical encoding of a byte string recovers it
(with any already-emitted prefix). -/
theorem b64decodeAux_encode :
    ∀ bs : Bytes, (∀ b ∈ bs, b < 256) → ∀ acc,
      b64decodeAux (b64encodeBytes bs) [] false acc = some (acc ++ bs) := by
  intro bs
  induction bs using b64encodeBytes.induct with
  | case1 =>
      intro _ acc
      simp [b64encodeBytes, b64decodeAux]
  | case2 b1 =>
      intro hb acc
      have h1 : b1 < 256 := hb b1 (by simp)
      have e1 := b64Val_b64Char (b1 / 4) (by omega)
      have e2 := b64Val_b64Char (b1 % 4 * 16) (by omega)
      simp [b64encodeBytes, b64decodeAux, e1, e2, b64Val_pad, pad_toNat]
      omega
  | case3 b1 b2 =>
      intro hb acc
      have h1 : b1 < 256 := hb b1 (by simp)
      have h2 : b2 < 256 := hb b2 (by simp)
      have e1 := b64Val_b64Char (b1 / 4) (by omega)
      have e2 := b64Val_b64Char (b1 % 4 * 16 + b2 / 16) (by omega)
      have e3 := b64Val_b64Char (b2 % 16 * 4) (by omega)
      simp [b64encodeBytes, b64decodeAux, e1, e2, e3, b64Val_pad, pad_toNat]
      omega
  | case4 b1 b2 b3 rest ih =>
      intro hb acc
      have h1 : b1 < 256 := hb b1 (by simp)
      have h2 : b2 < 256 := hb b2 (by simp)
      have h3 : b3 < 256 := hb b3 (by simp)
      have e1 := b64Val_b64Char (b1 / 4) (by omega)
      have e2 := b64Val_b64Char (b1 % 4 * 16 + b2 / 16) (by omega)
      have e3 := b64Val_b64Char (b2 % 16 * 4 + b3 / 64) (by omega)
      have e4 := b64Val_b64Char (b3 % 64) (by omega)
      have hbq : b64Quad (b1 / 4) (b1 % 4 * 16 + b2 / 16)
          (b2 % 16 * 4 + b3 / 64) (b3 % 64) = [b1, b2, b3] := by
        simp [b64Quad]
        omega
      simp only [b64encodeBytes, b64decodeAux, e1, e2, e3, e4,
        List.nil_append, List.singleton_append, List.cons_append, hbq]
      rw [ih (fun b hbm => hb b (by simp [hbm])) (acc ++ [b1, b2, b3])]
      simp

/-- `base64.b64decode(base64.b64encode(bs))` recovers `bs`. -/
theorem pythonB64Decode_encode (bs : Bytes) (hb : ∀ b ∈ bs, b < 256) :
    pythonB64Decode (String.mk (b64encodeBytes bs)) = some bs := by
  unfold pythonB64Decode
  exact b64decodeAux_encode bs hb []

/-- C4 (counterexample): `validate_header` accepts a header whose
salt decodes to 3 bytes instead of 32 — the code never checks the
decoded lengths. -/
theorem validate_ignores_decoded_lengths_counterexample :
    validateHeader defaultSettings wrongLenSaltHeader = true ∧
    pythonB64Decode wrongLenSaltHeader.salt = some [0, 0, 0] ∧
    ([0, 0, 0] : Bytes).length ≠ 32 := by
  refine ⟨by decide, by decide, by decide⟩

/-- C4 (amended): `validate_header` returns false when `t ≤ 0`, when
the algorithm is unsupported, when salt or nonce fail to base64-decode
(decodability only — decoded lengths are not checked), and when
`orig_size` is negative or exceeds the configured maximum; and it
returns true for every header produced by `create_header` with
default settings, a supported algorithm and an in-range size. -/
theorem validate_header_characterization :
    (∀ (s : Settings) (h : E4PHeader) (q : String × Int),
      (h.kdfParams.filter (fun p => p.1 = "t")).getLast? = some q →
      q.2 ≤ 0 → validateHeader s h = false) ∧
    (∀ (s : Settings) (h : E4PHeader), h.algorithm ≠ "AES-256-GCM" →
      h.algorithm ≠ "XCHACHA20-POLY1305" → validateHeader s h = false) ∧
    (∀ (s : Settings) (h : E4PHeader), pythonB64Decode h.salt = none →
      validateHeader s h = false) ∧
    (∀ (s : Settings) (h : E4PHeader), pythonB64Decode h.nonce = none →
      validateHeader s h = false) ∧
    (∀ (s : Settings) (h : E4PHeader),
      s.maxFileSizeMb * 1024 * 1024 < h.originalSize →
      validateHeader s h = false) ∧
    (∀ (s : Settings) (h : E4PHeader), h.originalSize < 0 →
      validateHeader s h = false) ∧
    (∀ (alg : String) (salt nonce : Bytes) (name : String) (size : Int)
      (ts : String),
      alg = "AES-256-GCM" ∨ alg = "XCHACHA20-POLY1305" →
      (∀ b ∈ salt, b < 256) → (∀ b ∈ nonce, b < 256) →
      0 ≤ size → size ≤ 2048 * 1024 * 1024 →
      validateHeader defaultSettings
        (createHeader defaultSettings alg salt nonce name size ts) = true) := by
  refine ⟨?_, ?_, ?_, ?_, ?_, ?_, ?_⟩
  · intro s h q hq hle
    simp [validateHeader, hq]
    omega
  · intro s h h1 h2
    simp [validateHeader, h1, h2]
  · intro s h h1
    simp [validateHeader, h1]
  · intro s h h1
    simp [validateHeader, h1]
  · intro s h h1
    simp [validateHeader]
    omega
  · intro s h h1
    simp [validateHeader]
    omega
  · intro alg salt nonce name size ts halg hsalt hnonce h0 hmax
    unfold validateHeader createHeader
    simp only [pythonB64Decode_encode salt hsalt,
      pythonB64Decode_encode nonce hnonce]
    rcases halg with h | h <;> subst h <;>
      simp [defaultSettings] <;>
      refine ⟨by omega, by omega⟩

/-- Witness for the amended C4 at concrete inputs (a header with
`t = 0`, and acceptance of a default `create_header` output). -/
theorem validate_header_characterization_witness :
    validateHeader defaultSettings
      { wrongLenSaltHeader with kdfParams := [("m", 262144), ("t", 0), ("p", 2)] }
      = false ∧
    validateHeader defaultSettings
      (createHeader defaultSettings "AES-256-GCM" sampleSalt sampleNonce
        "a.txt" 1024 sampleTs) = true :=
  ⟨validate_header_characterization.1 defaultSettings
      { wrongLenSaltHeader with kdfParams := [("m", 262144), ("t", 0), ("p", 2)] }
      ("t", 0) (by decide) (by decide),
    validate_header_characterization.2.2.2.2.2.2 "AES-256-GCM" sampleSalt
      sampleNonce "a.txt" 1024 sampleTs (Or.inl rfl) (by decide) (by decide)
      (by decide) (by decide)⟩

theorem hexVal_hexDigit : ∀ d, d < 16 → hexVal (hexDigit d) = some d := by
  decide

theorem charToNat_ofNat (n : Nat) (h : n.isValidChar) :
    (Char.ofNat n).toNat = n := by
  have hlt : n < 1114112 := by
    rcases h with h | ⟨_, h⟩
    · omega
    · omega
  simp [Char.ofNat, h, Char.ofNatAux, Char.toNat, UInt32.toNat, UInt32.ofNat',
    BitVec.toNat_ofNat]

theorem char_eq_of_toNat_eq {c : Char} {n : Nat} (h : c.toNat = n) :
    c = Char.ofNat n := by
  rw [← h, Char.ofNat_toNat]

theorem hex4Val_hex4 (n : Nat) (h : n < 65536) :
    hex4Val (hexDigit (n / 4096 % 16)) (hexDigit (n / 256 % 16))
      (hexDigit (n / 16 % 16)) (hexDigit (n % 16)) = some n := by
  have e1 := hexVal_hexDigit (n / 4096 % 16) (by omega)
  have e2 := hexVal_hexDigit (n / 256 % 16) (by omega)
  have e3 := hexVal_hexDigit (n / 16 % 16) (by omega)
  have e4 := hexVal_hexDigit (n % 16) (by omega)
  simp [hex4Val, e1, e2, e3, e4, Bind.bind, Option.bind]
  omega

theorem hexFold_quad (a b c d : Nat) :
    hexFold [a, b, c, d] = a * 4096 + b * 256 + c * 16 + d := by
  simp [hexFold, List.foldl]
  ring

/-- Consuming four hexadecimal digits in the `hexd` state with no
pending high surrogate. -/
theorem pjs_hexd_none (x1 x2 x3 x4 : Nat)
    (h1 : x1 < 16) (h2 : x2 < 16) (h3 : x3 < 16) (h4 : x4 < 16)
    (r acc : List Char) :
    parseJStringAux
        (hexDigit x1 :: hexDigit x2 :: hexDigit x3 :: hexDigit x4 :: r)
        (.hexd none []) acc =
      (if hexFold [x1, x2, x3, x4] < 55296 ∨
          57344 ≤ hexFold [x1, x2, x3, x4] then
        parseJStringAux r .norm
          (acc ++ [Char.ofNat (hexFold [x1, x2, x3, x4])])
      else if hexFold [x1, x2, x3, x4] < 56320 then
        parseJStringAux r (.pairSlash (hexFold [x1, x2, x3, x4])) acc
      else none) := by
  have e1 := hexVal_hexDigit x1 h1
  have e2 := hexVal_hexDigit x2 h2
  have e3 := hexVal_hexDigit x3 h3
  have e4 := hexVal_hexDigit x4 h4
  simp +decide only [parseJStringAux, e1, e2, e3, e4, List.nil_append,
    List.cons_append, List.length_nil, List.length_cons, if_true, if_false]

/-- Consuming four hexadecimal digits in the `hexd` state with a
pending high surrogate. -/
theorem pjs_hexd_some (hi : Nat) (x1 x2 x3 x4 : Nat)
    (h1 : x1 < 16) (h2 : x2 < 16) (h3 : x3 < 16) (h4 : x4 < 16)
    (r acc : List Char) :
    parseJStringAux
        (hexDigit x1 :: hexDigit x2 :: hexDigit x3 :: hexDigit x4 :: r)
        (.hexd (some hi) []) acc =
      (if 56320 ≤ hexFold [x1, x2, x3, x4] ∧
          hexFold [x1, x2, x3, x4] < 57344 then
        parseJStringAux r .norm
          (acc ++
            [Char.ofNat (65536 + (hi - 55296) * 1024 +
              (hexFold [x1, x2, x3, x4] - 56320))])
      else none) := by
  have e1 := hexVal_hexDigit x1 h1
  have e2 := hexVal_hexDigit x2 h2
  have e3 := hexVal_hexDigit x3 h3
  have e4 := hexVal_hexDigit x4 h4
  simp +decide only [parseJStringAux, e1, e2, e3, e4, List.nil_append,
    List.cons_append, List.length_nil, List.length_cons, if_true, if_false]

theorem pjs_norm_backslash (r acc : List Char) :
    parseJStringAux ('\\' :: r) .norm acc = parseJStringAux r .esc acc := rfl

theorem pjs_esc_u (r acc : List Char) :
    parseJStringAux ('u' :: r) .esc acc =
      parseJStringAux r (.hexd none []) acc := rfl

theorem pjs_pair_backslash (hi : Nat) (r acc : List Char) :
    parseJStringAux ('\\' :: r) (.pairSlash hi) acc =
      parseJStringAux r (.pairU hi) acc := rfl

theorem pjs_pair_u (hi : Nat) (r acc : List Char) :
    parseJStringAux ('u' :: r) (.pairU hi) acc =
      parseJStringAux r (.hexd (some hi) []) acc := rfl

/-- Reading back one escaped character: the parser consumes exactly
the escape `json.dumps` wrote and appends the original character. -/
theorem parseJStringAux_escape (c : Char) (rest acc : List Char) :
    parseJStringAux (escapeChar c ++ rest) .norm acc =
      parseJStringAux rest .norm (acc ++ [c]) := by
  have hvn : c.toNat < 55296 ∨ (57343 < c.toNat ∧ c.toNat < 1114112) := c.valid
  simp only [escapeChar]
  by_cases h34 : c.toNat = 34
  · rw [if_pos h34, char_eq_of_toNat_eq h34]
    rfl
  · rw [if_neg h34]
    by_cases h92 : c.toNat = 92
    · rw [if_pos h92, char_eq_of_toNat_eq h92]
      rfl
    · rw [if_neg h92]
      by_cases h8 : c.toNat = 8
      · rw [if_pos h8, char_eq_of_toNat_eq h8]
        rfl
      · rw [if_neg h8]
        by_cases h9 : c.toNat = 9
        · rw [if_pos h9, char_eq_of_toNat_eq h9]
          rfl
        · rw [if_neg h9]
          by_cases h10 : c.toNat = 10
          · rw [if_pos h10, char_eq_of_toNat_eq h10]
            rfl
          · rw [if_neg h10]
            by_cases h12 : c.toNat = 12
            · rw [if_pos h12, char_eq_of_toNat_eq h12]
              rfl
            · rw [if_neg h12]
              by_cases h13 : c.toNat = 13
              · rw [if_pos h13, char_eq_of_toNat_eq h13]
                rfl
              · rw [if_neg h13]
                by_cases hctl : c.toNat < 32
                · rw [if_pos hctl]
                  rw [hex4]
                  simp only [List.cons_append, List.nil_append]
                  rw [pjs_norm_backslash, pjs_esc_u]
                  rw [pjs_hexd_none _ _ _ _ (by omega) (by omega)
                    (by omega) (by omega)]
                  have hv : hexFold [c.toNat / 4096 % 16, c.toNat / 256 % 16,
                      c.toNat / 16 % 16, c.toNat % 16] = c.toNat := by
                    rw [hexFold_quad]
                    omega
                  rw [hv]
                  rw [if_pos (by omega : c.toNat < 55296 ∨ 57344 ≤ c.toNat)]
                  rw [Char.ofNat_toNat]
                · rw [if_neg hctl]
                  by_cases hprint : c.toNat < 127
                  · rw [if_pos hprint]
                    have hq : ¬ c = '"' := fun hc => h34 (by rw [hc]; rfl)
                    have hb : ¬ c = '\\' := fun hc => h92 (by rw [hc]; rfl)
                    simp only [List.cons_append, List.nil_append]
                    conv_lhs => rw [parseJStringAux]
                    rw [if_neg hq, if_neg hb, if_neg (by omega)]
                  · rw [if_neg hprint]
                    by_cases hbmp : c.toNat < 65536
                    · rw [if_pos hbmp]
                      have hrange : c.toNat < 55296 ∨ 57344 ≤ c.toNat := by
                        rcases hvn with h | ⟨hx, hy⟩
                        · left
                          omega
                        · right
                          omega
                      rw [hex4]
                      simp only [List.cons_append, List.nil_append]
                      rw [pjs_norm_backslash, pjs_esc_u]
                      rw [pjs_hexd_none _ _ _ _ (by omega) (by omega)
                        (by omega) (by omega)]
                      have hv : hexFold [c.toNat / 4096 % 16,
                          c.toNat / 256 % 16, c.toNat / 16 % 16,
                          c.toNat % 16] = c.toNat := by
                        rw [hexFold_quad]
                        omega
                      rw [hv, if_pos hrange, Char.ofNat_toNat]
                    · rw [if_neg hbmp]
                      have hmax : c.toNat < 1114112 := by
                        rcases hvn with h | ⟨hx, hy⟩
                        · omega
                        · omega
                      rw [hex4, hex4]
                      simp only [List.cons_append, List.nil_append,
                        List.append_assoc]
                      rw [pjs_norm_backslash, pjs_esc_u]
                      rw [pjs_hexd_none _ _ _ _ (by omega) (by omega)
                        (by omega) (by omega)]
                      have hv1 : hexFold [(55296 + (c.toNat - 65536) / 1024) / 4096 % 16,
                          (55296 + (c.toNat - 65536) / 1024) / 256 % 16,
                          (55296 + (c.toNat - 65536) / 1024) / 16 % 16,
                          (55296 + (c.toNat - 65536) / 1024) % 16] =
                          55296 + (c.toNat - 65536) / 1024 := by
                        rw [hexFold_quad]
                        omega
                      rw [hv1]
                      rw [if_neg (by omega :
                        ¬ (55296 + (c.toNat - 65536) / 1024 < 55296 ∨
                          57344 ≤ 55296 + (c.toNat - 65536) / 1024))]
                      rw [if_pos (by omega :
                        55296 + (c.toNat - 65536) / 1024 < 56320)]
                      rw [pjs_pair_backslash, pjs_pair_u]
                      rw [pjs_hexd_some _ _ _ _ _ (by omega) (by omega)
                        (by omega) (by omega)]
                      have hv2 : hexFold [(56320 + (c.toNat - 65536) % 1024) / 4096 % 16,
                          (56320 + (c.toNat - 65536) % 1024) / 256 % 16,
                          (56320 + (c.toNat - 65536) % 1024) / 16 % 16,
                          (56320 + (c.toNat - 65536) % 1024) % 16] =
                          56320 + (c.toNat - 65536) % 1024 := by
                        rw [hexFold_quad]
                        omega
                      rw [hv2]
                      rw [if_pos (by omega :
                        56320 ≤ 56320 + (c.toNat - 65536) % 1024 ∧
                          56320 + (c.toNat - 65536) % 1024 < 57344)]
                      have harith : 65536 +
                          (55296 + (c.toNat - 65536) / 1024 - 55296) * 1024 +
                          (56320 + (c.toNat - 65536) % 1024 - 56320) =
                          c.toNat := by
                        omega
                      rw [harith, Char.ofNat_toNat]

/-- The parser inverts the printer over a whole escaped string body. -/
theorem parseJStringAux_print (cs : List Char) :
    ∀ rest acc,
      parseJStringAux (cs.flatMap escapeChar ++ ('"' :: rest)) .norm acc =
        some (acc ++ cs, rest) := by
  induction cs with
  | nil =>
      intro rest acc
      simp only [List.flatMap_nil, List.nil_append, List.append_nil]
      rfl
  | cons c cs ih =>
      intro rest acc
      simp only [List.flatMap_cons, List.append_assoc]
      rw [parseJStringAux_escape, ih]
      simp

/-- `parseJString` inverts `printJString`. -/
theorem parseJString_print (s : String) (rest : List Char) :
    parseJString (printJString s ++ rest) = some (s, rest) := by
  have hsh : printJString s ++ rest =
      '"' :: (s.data.flatMap escapeChar ++ ('"' :: rest)) := by
    simp [printJString]
  rw [hsh]
  simp only [parseJString]
  rw [parseJStringAux_print]
  simp

/-- Every character that `natDigitsRev` emits is a decimal digit. -/
theorem natDigitsRev_digits :
    ∀ fuel n, n < fuel → ∀ c ∈ natDigitsRevAux fuel n, isDigitChar c = true := by
  intro fuel
  induction fuel with
  | zero => omega
  | succ fuel ih =>
      intro n hf c hc
      simp only [natDigitsRevAux] at hc
      by_cases h : n < 10
      · rw [if_pos h] at hc
        simp at hc
        subst hc
        simp [isDigitChar, charToNat_ofNat (48 + n) (by left; omega)]
        omega
      · rw [if_neg h] at hc
        rcases List.mem_cons.mp hc with h1 | h1
        · subst h1
          simp [isDigitChar, charToNat_ofNat (48 + n % 10) (by left; omega)]
          omega
        · exact ih (n / 10) (by omega) c h1

/-- The leading digit of a nonzero numeral is not `'0'`. -/
theorem natDigitsRev_last_ne_zero :
    ∀ fuel n, n < fuel → 0 < n →
      (natDigitsRevAux fuel n).getLast? ≠ some '0' := by
  intro fuel
  induction fuel with
  | zero => omega
  | succ fuel ih =>
      intro n hf hn
      simp only [natDigitsRevAux]
      by_cases h : n < 10
      · rw [if_pos h]
        simp only [List.getLast?_singleton]
        intro hc
        injection hc with hc
        have h2 := congrArg Char.toNat hc
        rw [charToNat_ofNat (48 + n) (by left; omega)] at h2
        have h0 : ('0' : Char).toNat = 48 := by decide
        rw [h0] at h2
        omega
      · rw [if_neg h]
        by_cases hz : 0 < n / 10
        · have hne : natDigitsRevAux fuel (n / 10) ≠ [] := by
            cases hfuel : fuel with
            | zero => omega
            | succ f =>
                simp only [natDigitsRevAux]
                by_cases h2 : n / 10 < 10 <;> simp [h2]
          obtain ⟨d, ds, hds⟩ := List.exists_cons_of_ne_nil hne
          rw [hds, List.getLast?_cons_cons, ← hds]
          exact ih (n / 10) (by omega) hz
        · omega

theorem takeWhile_all_append {p : Char → Bool} (xs ys : List Char)
    (h : ∀ x ∈ xs, p x = true) :
    (xs ++ ys).takeWhile p = xs ++ ys.takeWhile p := by
  induction xs with
  | nil => simp
  | cons x xs ih =>
      simp only [List.cons_append, List.takeWhile_cons, h x (by simp)]
      rw [ih (fun x hx => h x (by simp [hx]))]
      simp

theorem dropWhile_all_append {p : Char → Bool} (xs ys : List Char)
    (h : ∀ x ∈ xs, p x = true) :
    (xs ++ ys).dropWhile p = ys.dropWhile p := by
  induction xs with
  | nil => simp
  | cons x xs ih =>
      simp only [List.cons_append, List.dropWhile_cons, h x (by simp)]
      rw [ih (fun x hx => h x (by simp [hx]))]
      simp

theorem takeWhile_noLeadingDigit {ys : List Char} (h : noLeadingDigit ys) :
    ys.takeWhile isDigitChar = [] := by
  cases ys with
  | nil => rfl
  | cons y ys =>
      simp [List.takeWhile_cons, h y rfl]

theorem dropWhile_noLeadingDigit {ys : List Char} (h : noLeadingDigit ys) :
    ys.dropWhile isDigitChar = ys := by
  cases ys with
  | nil => rfl
  | cons y ys =>
      simp [List.dropWhile_cons, h y rfl]

theorem digitsVal_natDigitsRevAux :
    ∀ fuel n, n < fuel → ∀ a,
      List.foldl (fun a c => a * 10 + (c.toNat - 48)) a
          ((natDigitsRevAux fuel n).reverse) =
        a * 10 ^ (natDigitsRevAux fuel n).length + n := by
  intro fuel
  induction fuel with
  | zero => omega
  | succ fuel ih =>
      intro n hf a
      simp only [natDigitsRevAux]
      by_cases h : n < 10
      · rw [if_pos h]
        simp only [List.reverse_singleton, List.foldl_cons, List.foldl_nil,
          List.length_singleton, pow_one]
        rw [charToNat_ofNat (48 + n) (by left; omega)]
        omega
      · rw [if_neg h]
        simp only [List.reverse_cons, List.foldl_append, List.foldl_cons,
          List.foldl_nil, List.length_cons]
        rw [ih (n / 10) (by omega) a]
        rw [charToNat_ofNat (48 + n % 10) (by left; omega)]
        have hx : (48 : Nat) + n % 10 - 48 = n % 10 := by omega
        rw [hx, pow_succ]
        have hmod : n / 10 * 10 + n % 10 = n := by omega
        calc (a * 10 ^ (natDigitsRevAux fuel (n / 10)).length + n / 10) * 10 +
              n % 10
            = a * (10 ^ (natDigitsRevAux fuel (n / 10)).length * 10) +
              (n / 10 * 10 + n % 10) := by ring
          _ = a * (10 ^ (natDigitsRevAux fuel (n / 10)).length * 10) + n := by
              rw [hmod]

/-- `digitsVal` of the printed numeral of `n` is `n`. -/
theorem digitsVal_print (n : Nat) :
    digitsVal ((natDigitsRev n).reverse) = n := by
  unfold digitsVal natDigitsRev
  rw [digitsVal_natDigitsRevAux (n + 1) n (by omega) 0]
  simp

/-- Parsing an unsigned printed numeral. -/
theorem parseJNat_print (n : Nat) (rest : List Char)
    (hrest : noLeadingDigit rest) :
    parseJNat ((natDigitsRev n).reverse ++ rest) = some (n, rest) := by
  by_cases h0 : n = 0
  · subst h0
    have : natDigitsRev 0 = ['0'] := by
      simp only [natDigitsRev, natDigitsRevAux]
      norm_num
    rw [this]
    simp only [List.reverse_singleton, List.cons_append]
    simp [parseJNat]
  · have hne : (natDigitsRev n).reverse ≠ [] := by
      simp only [natDigitsRev, natDigitsRevAux]
      by_cases h : n < 10 <;> simp [h]
    obtain ⟨c, cs, hcs⟩ := List.exists_cons_of_ne_nil hne
    have hdigs : ∀ x ∈ (natDigitsRev n).reverse, isDigitChar x = true := by
      intro x hx
      exact natDigitsRev_digits (n + 1) n (by omega) x (by simpa using hx)
    have hcdig : isDigitChar c = true := by
      apply hdigs
      rw [hcs]
      simp
    have hcne0 : ¬ c = '0' := by
      intro hc
      have hlast : ((natDigitsRev n).reverse).head? = some c := by
        rw [hcs]
        rfl
      rw [List.head?_reverse] at hlast
      unfold natDigitsRev at hlast
      exact natDigitsRev_last_ne_zero (n + 1) n (by omega) (by omega)
        (by rw [hlast, hc])
    rw [hcs]
    simp only [List.cons_append, parseJNat]
    rw [if_neg hcne0, if_pos hcdig]
    have htw : (cs ++ rest).takeWhile isDigitChar = cs := by
      rw [takeWhile_all_append cs rest
        (fun x hx => by
          apply hdigs
          rw [hcs]
          simp [hx])]
      rw [takeWhile_noLeadingDigit hrest]
      simp
    have hdw : (cs ++ rest).dropWhile isDigitChar = rest := by
      rw [dropWhile_all_append cs rest
        (fun x hx => by
          apply hdigs
          rw [hcs]
          simp [hx])]
      exact dropWhile_noLeadingDigit hrest
    rw [htw, hdw]
    have hval : digitsVal (c :: cs) = n := by
      rw [← hcs, digitsVal_print]
    rw [hval]

/-- Parsing a printed integer (`json.dumps` rendering of `int`). -/
theorem parseJInt_print (i : Int) (rest : List Char)
    (hrest : noLeadingDigit rest) :
    parseJInt (intChars i ++ rest) = some (i, rest) := by
  unfold intChars
  by_cases hneg : i < 0
  · rw [if_pos hneg]
    simp only [List.cons_append, parseJInt, if_pos rfl]
    rw [parseJNat_print i.natAbs rest hrest]
    have hi : -(i.natAbs : Int) = i := by omega
    simp only [if_true, hi]
  · rw [if_neg hneg]
    have hne : (natDigitsRev i.natAbs).reverse ≠ [] := by
      simp only [natDigitsRev, natDigitsRevAux]
      by_cases h : i.natAbs < 10 <;> simp [h]
    obtain ⟨c, cs, hcs⟩ := List.exists_cons_of_ne_nil hne
    have hcdig : isDigitChar c = true := by
      apply natDigitsRev_digits (i.natAbs + 1) i.natAbs (by omega)
      have : c ∈ (natDigitsRev i.natAbs).reverse := by
        rw [hcs]
        simp
      simpa using this
    have hcnd : ¬ c = '-' := by
      intro hc
      rw [hc] at hcdig
      simp [isDigitChar] at hcdig
    rw [hcs]
    simp only [List.cons_append, parseJInt]
    rw [if_neg hcnd, ← List.cons_append, ← hcs,
      parseJNat_print i.natAbs rest hrest]
    have hi : (i.natAbs : Int) = i := by omega
    simp only [hi]

theorem skipWs_cons {c : Char} (l : List Char) (h : isWsChar c = false) :
    skipWs (c :: l) = c :: l := by
  simp [skipWs, List.dropWhile_cons, h]

theorem isWsChar_false_of_digit {c : Char} (h : isDigitChar c = true) :
    isWsChar c = false := by
  simp only [isDigitChar, Bool.and_eq_true, decide_eq_true_eq] at h
  simp only [isWsChar]
  have hs : ¬ c = ' ' := fun hc => by
    rw [hc] at h
    exact absurd h (by decide)
  have ht : ¬ c = '\t' := fun hc => by
    rw [hc] at h
    exact absurd h (by decide)
  have hn : ¬ c = '\n' := fun hc => by
    rw [hc] at h
    exact absurd h (by decide)
  have hr : ¬ c = '\r' := fun hc => by
    rw [hc] at h
    exact absurd h (by decide)
  simp [hs, ht, hn, hr]

/-- The printed form of an integer starts with a non-whitespace
character, so `json.loads` skips nothing before it. -/
theorem skipWs_intChars (i : Int) (l : List Char) :
    skipWs (intChars i ++ l) = intChars i ++ l := by
  unfold intChars
  by_cases hneg : i < 0
  · rw [if_pos hneg]
    simp only [List.cons_append]
    exact skipWs_cons _ (by decide)
  · rw [if_neg hneg]
    have hne : (natDigitsRev i.natAbs).reverse ≠ [] := by
      simp only [natDigitsRev, natDigitsRevAux]
      by_cases h : i.natAbs < 10 <;> simp [h]
    obtain ⟨c, cs, hcs⟩ := List.exists_cons_of_ne_nil hne
    have hcdig : isDigitChar c = true := by
      apply natDigitsRev_digits (i.natAbs + 1) i.natAbs (by omega)
      have : c ∈ (natDigitsRev i.natAbs).reverse := by
        rw [hcs]
        simp
      simpa using this
    rw [hcs]
    simp only [List.cons_append]
    exact skipWs_cons _ (isWsChar_false_of_digit hcdig)

/-- The head of a printed integer is neither `"` nor an opening
brace. -/
theorem intChars_head_plain (i : Int) :
    ∃ c cs, intChars i = c :: cs ∧ ¬ c = '"' ∧ ¬ c = lbrace ∧
      ¬ c = 'n' ∧ ¬ c = 't' ∧ ¬ c = 'f' := by
  unfold intChars
  by_cases hneg : i < 0
  · rw [if_pos hneg]
    exact ⟨'-', _, rfl, by decide, by decide, by decide, by decide, by decide⟩
  · rw [if_neg hneg]
    have hne : (natDigitsRev i.natAbs).reverse ≠ [] := by
      simp only [natDigitsRev, natDigitsRevAux]
      by_cases h : i.natAbs < 10 <;> simp [h]
    obtain ⟨c, cs, hcs⟩ := List.exists_cons_of_ne_nil hne
    have hcdig : isDigitChar c = true := by
      apply natDigitsRev_digits (i.natAbs + 1) i.natAbs (by omega)
      have : c ∈ (natDigitsRev i.natAbs).reverse := by
        rw [hcs]
        simp
      simpa using this
    refine ⟨c, cs, hcs, ?_, ?_, ?_, ?_, ?_⟩ <;>
      · intro hc
        rw [hc] at hcdig
        simp [isDigitChar, lbrace] at hcdig

/-- A list starting with `,`, `}`, or end of input has no leading
digit. -/
theorem noLeadingDigit_cons {c : Char} (l : List Char)
    (h : isDigitChar c = false) : noLeadingDigit (c :: l) := by
  intro d hd
  injection hd with hd
  rw [← hd]
  exact h

theorem noLeadingDigit_rbrace (l : List Char) :
    noLeadingDigit (rbrace :: l) := by
  apply noLeadingDigit_cons
  simp [isDigitChar, rbrace]

theorem noLeadingDigit_comma (l : List Char) :
    noLeadingDigit (',' :: l) := by
  apply noLeadingDigit_cons
  decide

theorem skipWs_printJString (s : String) (l : List Char) :
    skipWs (printJString s ++ l) = printJString s ++ l := by
  simp only [printJString, List.cons_append]
  exact skipWs_cons _ (by decide)

theorem parseIntPairsAux_print :
    ∀ fs : List (String × Int), fs ≠ [] →
      ∀ fuel, fs.length ≤ fuel →
        ∀ (acc : List (String × Int)) (rest0 : List Char),
          parseIntPairsAux fuel (printIntPairs fs ++ (rbrace :: rest0)) acc =
            some (acc ++ fs, rest0) := by
  intro fs
  induction fs with
  | nil =>
      intro h
      exact absurd rfl h
  | cons kv fs ih =>
      obtain ⟨k, v⟩ := kv
      intro _ fuel hfuel acc rest0
      match fuel, hfuel with
      | f + 1, hfuel =>
        cases fs with
        | nil =>
            have hpp : printIntPairs [(k, v)] =
                printJString k ++ ':' :: intChars v := rfl
            rw [hpp]
            simp only [parseIntPairsAux, List.append_assoc, List.cons_append,
              skipWs_printJString, parseJString_print]
            simp +decide only [skipWs_cons, skipWs_intChars,
              parseJInt_print v _ (noLeadingDigit_rbrace _), if_true, if_false]
        | cons p2 fs2 =>
            have hpp : printIntPairs ((k, v) :: p2 :: fs2) =
                (printJString k ++ ':' :: intChars v) ++
                  (',' :: printIntPairs (p2 :: fs2)) := rfl
            rw [hpp]
            simp only [parseIntPairsAux, List.append_assoc, List.cons_append,
              skipWs_printJString, parseJString_print]
            simp +decide only [skipWs_cons, skipWs_intChars,
              parseJInt_print v _ (noLeadingDigit_comma _), if_true, if_false]
            rw [ih (by simp) f (by simpa using hfuel) (acc ++ [(k, v)]) rest0]
            simp

theorem joinComma_length (xs : List (List Char))
    (h : ∀ x ∈ xs, 1 ≤ x.length) : xs.length ≤ (joinComma xs).length := by
  induction xs with
  | nil => simp [joinComma]
  | cons x xs ih =>
      cases xs with
      | nil =>
          simpa [joinComma] using h x (by simp)
      | cons y ys =>
          have hx := h x (by simp)
          have hrec := ih (fun z hz => h z (by simp [List.mem_cons] at hz ⊢; tauto))
          simp only [joinComma, List.length_append, List.length_cons] at hrec ⊢
          omega

theorem printIntPairs_length (fs : List (String × Int)) :
    fs.length ≤ (printIntPairs fs).length := by
  unfold printIntPairs
  have h := joinComma_length (fs.map
    (fun p => printJString p.1 ++ ':' :: intChars p.2)) ?_
  · simpa using h
  · intro x hx
    rcases List.mem_map.mp hx with ⟨p, _, hp⟩
    rw [← hp]
    simp [printJString]

theorem parseInnerObj_print (fs : List (String × Int)) (rest : List Char) :
    parseInnerObj (lbrace :: (printIntPairs fs ++ (rbrace :: rest))) =
      some (fs, rest) := by
  cases fs with
  | nil =>
      have hpp : printIntPairs [] = [] := rfl
      rw [hpp]
      simp only [List.nil_append]
      simp +decide only [parseInnerObj, skipWs_cons, if_true, if_false]
  | cons p fs2 =>
      obtain ⟨tail, htail⟩ : ∃ tail,
          printIntPairs (p :: fs2) = printJString p.1 ++ (':' :: tail) := by
        cases fs2 with
        | nil => exact ⟨intChars p.2, rfl⟩
        | cons q qs =>
            refine ⟨intChars p.2 ++ (',' :: printIntPairs (q :: qs)), ?_⟩
            simp only [printIntPairs, List.map_cons, joinComma,
              List.cons_append, List.append_assoc]
      simp only [parseInnerObj, if_true]
      rw [htail, List.append_assoc]
      rw [show (':' :: tail) ++ (rbrace :: rest) = ':' :: (tail ++ rbrace :: rest)
        from rfl]
      rw [skipWs_printJString]
      have hq : printJString p.1 ++ (':' :: (tail ++ rbrace :: rest)) =
          '"' :: (p.1.data.flatMap escapeChar ++ ['"'] ++
            (':' :: (tail ++ rbrace :: rest))) := by
        simp [printJString]
      rw [hq]
      simp +decide only [if_false, if_true]
      rw [← hq, ← List.cons_append, ← List.append_assoc, ← htail]
      have hlen : (p :: fs2).length ≤
          ((printIntPairs (p :: fs2) ++ rbrace :: rest).length + 1) := by
        have := printIntPairs_length (p :: fs2)
        simp only [List.length_append, List.length_cons] at this ⊢
        omega
      exact parseIntPairsAux_print (p :: fs2) (by simp) _ hlen [] rest

theorem skipWs_printJVal (v : JVal) (l : List Char) :
    skipWs (printJVal v ++ l) = printJVal v ++ l := by
  cases v with
  | jstr s => exact skipWs_printJString s l
  | jint n => exact skipWs_intChars n l
  | jobj fs =>
      simp only [printJVal, List.cons_append]
      exact skipWs_cons _ (by decide)
  | jnull =>
      simp only [printJVal, List.cons_append]
      exact skipWs_cons _ (by decide)
  | jbool b =>
      cases b <;>
        · simp only [printJVal, List.cons_append]
          exact skipWs_cons _ (by decide)

/-- Recursion core of `collapseIntPairs` keeps a distinct-key list
unchanged. -/
theorem collapseIntPairs_aux_nodup :
    ∀ (fs acc : List (String × Int)),
      ((acc ++ fs).map Prod.fst).Nodup →
      fs.foldl
        (fun d p =>
          if (d.map Prod.fst).contains p.1 then
            d.map (fun q => if q.1 = p.1 then (q.1, p.2) else q)
          else d ++ [p]) acc = acc ++ fs := by
  intro fs
  induction fs with
  | nil =>
      intro acc _
      simp
  | cons p fs ih =>
      intro acc hnd
      have hmem : (acc.map Prod.fst).contains p.1 = false := by
        rw [Bool.eq_false_iff]
        intro hc
        have hpin : p.1 ∈ acc.map Prod.fst := by
          simpa using hc
        have : (acc.map Prod.fst ++ (p.1 :: fs.map Prod.fst)).Nodup := by
          simpa [List.map_append] using hnd
        rw [List.nodup_append] at this
        exact this.2.2 hpin (by simp)
      simp only [List.foldl_cons] at *
      rw [if_neg (by rw [hmem]; exact Bool.false_ne_true)]
      have := ih (acc ++ [p]) (by simpa using hnd)
      simpa using this

/-- A parsed inner object with distinct keys collapses to itself. -/
theorem collapseIntPairs_nodup (fs : List (String × Int))
    (h : (fs.map Prod.fst).Nodup) : collapseIntPairs fs = fs := by
  unfold collapseIntPairs
  have := collapseIntPairs_aux_nodup fs [] (by simpa using h)
  simpa using this

theorem parseJVal_print (v : JVal) (rest : List Char)
    (hnd : noLeadingDigit rest)
    (hobj : ∀ gs, v = .jobj gs → (gs.map Prod.fst).Nodup) :
    parseJVal (printJVal v ++ rest) = some (v, rest) := by
  cases v with
  | jstr s =>
      have h := parseJString_print s rest
      simp only [printJVal, printJString, List.cons_append, List.append_assoc]
        at h ⊢
      simp +decide only [parseJVal, if_true, if_false]
      rw [h]
  | jint n =>
      obtain ⟨c, cs, hcs, hq, hb, hn, ht, hf⟩ := intChars_head_plain n
      simp only [printJVal]
      rw [hcs]
      simp only [List.cons_append, parseJVal]
      rw [if_neg hq, if_neg hb, if_neg hn, if_neg ht, if_neg hf,
        ← List.cons_append, ← hcs, parseJInt_print n rest hnd]
  | jobj fs =>
      simp only [printJVal, List.cons_append, List.append_assoc,
        List.singleton_append, List.nil_append]
      simp +decide only [parseJVal, if_true, if_false]
      rw [parseInnerObj_print fs rest]
      simp only [collapseIntPairs_nodup fs (hobj fs rfl)]
  | jnull =>
      simp only [printJVal, List.cons_append]
      simp +decide only [parseJVal, if_true, if_false, List.nil_append]
  | jbool b =>
      cases b <;>
        · simp only [printJVal, List.cons_append]
          simp +decide only [parseJVal, if_true, if_false, List.nil_append]

theorem printTopPairs_length (fs : List (String × JVal)) :
    fs.length ≤ (printTopPairs fs).length := by
  unfold printTopPairs
  have h := joinComma_length (fs.map
    (fun p => printJString p.1 ++ ':' :: printJVal p.2)) ?_
  · simpa using h
  · intro x hx
    rcases List.mem_map.mp hx with ⟨p, _, hp⟩
    rw [← hp]
    simp [printJString]

theorem parseTopPairsAux_print :
    ∀ fs : List (String × JVal), fs ≠ [] →
      (∀ p ∈ fs, ∀ gs, p.2 = JVal.jobj gs → (gs.map Prod.fst).Nodup) →
      ∀ fuel, fs.length ≤ fuel →
        ∀ (acc : List (String × JVal)) (rest0 : List Char),
          parseTopPairsAux fuel (printTopPairs fs ++ (rbrace :: rest0)) acc =
            some (acc ++ fs, rest0) := by
  intro fs
  induction fs with
  | nil =>
      intro h
      exact absurd rfl h
  | cons kv fs ih =>
      obtain ⟨k, v⟩ := kv
      intro _ hvals fuel hfuel acc rest0
      have hv : ∀ gs, v = JVal.jobj gs → (gs.map Prod.fst).Nodup :=
        fun gs hg => hvals (k, v) (by simp) gs hg
      match fuel, hfuel with
      | f + 1, hfuel =>
        cases fs with
        | nil =>
            have hpp : printTopPairs [(k, v)] =
                printJString k ++ ':' :: printJVal v := rfl
            rw [hpp]
            simp only [parseTopPairsAux, List.append_assoc, List.cons_append,
              skipWs_printJString, parseJString_print]
            simp +decide only [skipWs_cons, skipWs_printJVal,
              parseJVal_print v _ (noLeadingDigit_rbrace _) hv,
              if_true, if_false]
        | cons p2 fs2 =>
            have hpp : printTopPairs ((k, v) :: p2 :: fs2) =
                (printJString k ++ ':' :: printJVal v) ++
                  (',' :: printTopPairs (p2 :: fs2)) := rfl
            rw [hpp]
            simp only [parseTopPairsAux, List.append_assoc, List.cons_append,
              skipWs_printJString, parseJString_print]
            simp +decide only [skipWs_cons, skipWs_printJVal,
              parseJVal_print v _ (noLeadingDigit_comma _) hv,
              if_true, if_false]
            rw [ih (by simp)
              (fun p hp gs hg => hvals p (List.mem_cons_of_mem _ hp) gs hg)
              f (by simpa using hfuel) (acc ++ [(k, v)]) rest0]
            simp

theorem collapsePairs_aux_nodup :
    ∀ (fs acc : List (String × JVal)),
      ((acc ++ fs).map Prod.fst).Nodup →
      fs.foldl
        (fun d p =>
          if (d.map Prod.fst).contains p.1 then
            d.map (fun q => if q.1 = p.1 then (q.1, p.2) else q)
          else d ++ [p]) acc = acc ++ fs := by
  intro fs
  induction fs with
  | nil =>
      intro acc _
      simp
  | cons p fs ih =>
      intro acc hnd
      have hmem : (acc.map Prod.fst).contains p.1 = false := by
        rw [Bool.eq_false_iff]
        intro hc
        have hpin : p.1 ∈ acc.map Prod.fst := by
          simpa using hc
        have : (acc.map Prod.fst ++ (p.1 :: fs.map Prod.fst)).Nodup := by
          simpa [List.map_append] using hnd
        rw [List.nodup_append] at this
        exact this.2.2 hpin (by simp)
      simp only [List.foldl_cons] at *
      rw [if_neg (by rw [hmem]; exact Bool.false_ne_true)]
      have := ih (acc ++ [p]) (by simpa using hnd)
      simpa using this

/-- A parsed object with distinct keys collapses to itself. -/
theorem collapsePairs_nodup (fs : List (String × JVal))
    (h : (fs.map Prod.fst).Nodup) : collapsePairs fs = fs := by
  unfold collapsePairs
  have := collapsePairs_aux_nodup fs [] (by simpa using h)
  simpa using this

/-- `json.loads` inverts `json.dumps` on an object with distinct
keys (and distinct keys in any nested object). -/
theorem jsonLoads_dumps (fs : List (String × JVal))
    (h : (fs.map Prod.fst).Nodup)
    (hin : ∀ p ∈ fs, ∀ gs, p.2 = JVal.jobj gs → (gs.map Prod.fst).Nodup) :
    jsonLoads (jsonDumps fs) = some fs := by
  cases fs with
  | nil =>
      simp +decide only [jsonDumps, jsonLoads, joinComma, List.map_nil,
        skipWs_cons, List.nil_append, if_true, if_false]
  | cons p fs2 =>
      have hdump : jsonDumps (p :: fs2) =
          lbrace :: (printTopPairs (p :: fs2) ++ (rbrace :: [])) := by
        simp [jsonDumps, printTopPairs]
      rw [hdump]
      obtain ⟨tail, htail⟩ : ∃ tail,
          printTopPairs (p :: fs2) = printJString p.1 ++ (':' :: tail) := by
        cases fs2 with
        | nil => exact ⟨printJVal p.2, rfl⟩
        | cons q qs =>
            refine ⟨printJVal p.2 ++ (',' :: printTopPairs (q :: qs)), ?_⟩
            simp only [printTopPairs, List.map_cons, joinComma,
              List.cons_append, List.append_assoc]
      simp only [jsonLoads]
      rw [skipWs_cons _ (by decide)]
      simp +decide only [if_true, if_false]
      rw [htail, List.append_assoc]
      rw [show (':' :: tail) ++ (rbrace :: ([] : List Char)) =
        ':' :: (tail ++ rbrace :: []) from rfl]
      rw [skipWs_printJString]
      have hq : printJString p.1 ++ (':' :: (tail ++ rbrace :: [])) =
          '"' :: (p.1.data.flatMap escapeChar ++ ['"'] ++
            (':' :: (tail ++ rbrace :: []))) := by
        simp [printJString]
      rw [hq]
      simp +decide only [if_false, if_true]
      rw [← hq, ← List.cons_append, ← List.append_assoc, ← htail]
      have hlen : (p :: fs2).length ≤
          ((printTopPairs (p :: fs2) ++ rbrace :: []).length + 1) := by
        have := printTopPairs_length (p :: fs2)
        simp only [List.length_append, List.length_cons] at this ⊢
        omega
      rw [parseTopPairsAux_print (p :: fs2) (by simp) hin _ hlen [] []]
      simp only [List.nil_append]
      rw [show skipWs [] = [] from rfl]
      simp only [if_true]
      rw [collapsePairs_nodup (p :: fs2) h]

theorem hexDigit_ascii (d : Nat) (h : d < 16) : (hexDigit d).toNat < 128 := by
  unfold hexDigit
  by_cases h10 : d < 10
  · rw [if_pos h10, charToNat_ofNat _ (by left; omega)]
    omega
  · rw [if_neg h10, charToNat_ofNat _ (by left; omega)]
    omega

theorem hex4_ascii (A : Nat) (x : Char) (hx : x ∈ hex4 A) :
    x.toNat < 128 := by
  simp [hex4] at hx
  rcases hx with rfl | rfl | rfl | rfl <;> exact hexDigit_ascii _ (by omega)

theorem hexEsc_ascii (A : Nat) (x : Char)
    (hx : x ∈ '\\' :: 'u' :: hex4 A) : x.toNat < 128 := by
  rcases List.mem_cons.mp hx with rfl | hx2
  · decide
  rcases List.mem_cons.mp hx2 with rfl | hx3
  · decide
  exact hex4_ascii A x hx3

set_option maxRecDepth 100000 in
theorem escapeChar_ascii (c : Char) (x : Char) (hx : x ∈ escapeChar c) :
    x.toNat < 128 := by
  unfold escapeChar at hx
  by_cases h1 : c.toNat = 34
  · rw [if_pos h1] at hx
    simp at hx
    rcases hx with rfl | rfl <;> decide
  · rw [if_neg h1] at hx
    by_cases h2 : c.toNat = 92
    · rw [if_pos h2] at hx
      simp at hx
      rcases hx with rfl | rfl <;> decide
    · rw [if_neg h2] at hx
      by_cases h3 : c.toNat = 8
      · rw [if_pos h3] at hx
        simp at hx
        rcases hx with rfl | rfl <;> decide
      · rw [if_neg h3] at hx
        by_cases h4 : c.toNat = 9
        · rw [if_pos h4] at hx
          simp at hx
          rcases hx with rfl | rfl <;> decide
        · rw [if_neg h4] at hx
          by_cases h5 : c.toNat = 10
          · rw [if_pos h5] at hx
            simp at hx
            rcases hx with rfl | rfl <;> decide
          · rw [if_neg h5] at hx
            by_cases h6 : c.toNat = 12
            · rw [if_pos h6] at hx
              simp at hx
              rcases hx with rfl | rfl <;> decide
            · rw [if_neg h6] at hx
              by_cases h7 : c.toNat = 13
              · rw [if_pos h7] at hx
                simp at hx
                rcases hx with rfl | rfl <;> decide
              · rw [if_neg h7] at hx
                by_cases h8 : c.toNat < 32
                · rw [if_pos h8] at hx
                  simp [hex4] at hx
                  rcases hx with rfl | rfl | rfl | rfl | rfl | rfl <;>
                    first | (exact hexDigit_ascii _ (by omega)) | decide
                · rw [if_neg h8] at hx
                  by_cases h9 : c.toNat < 127
                  · rw [if_pos h9] at hx
                    simp at hx
                    subst hx
                    omega
                  · rw [if_neg h9] at hx
                    by_cases h10 : c.toNat < 65536
                    · rw [if_pos h10] at hx
                      simp [hex4] at hx
                      rcases hx with rfl | rfl | rfl | rfl | rfl | rfl <;>
                        first | (exact hexDigit_ascii _ (by omega)) | decide
                    · rw [if_neg h10] at hx
                      rcases List.mem_cons.mp hx with rfl | hx2
                      · decide
                      rcases List.mem_cons.mp hx2 with rfl | hx3
                      · decide
                      rcases List.mem_append.mp hx3 with h | h
                      · exact hex4_ascii _ x h
                      · exact hexEsc_ascii _ x h

/-- Every character of a printed JSON string literal is ASCII. -/
theorem printJString_ascii (s : String) :
    ∀ x ∈ printJString s, x.toNat < 128 := by
  intro x hx
  unfold printJString at hx
  rcases List.mem_cons.mp hx with rfl | hx2
  · decide
  rcases List.mem_append.mp hx2 with hx3 | hx3
  · rw [List.mem_flatMap] at hx3
    obtain ⟨c, _, hc⟩ := hx3
    exact escapeChar_ascii c x hc
  · simp at hx3
    subst hx3
    decide

/-- Decimal digits are ASCII. -/
theorem natDigitsRevAux_ascii (f : Nat) :
    ∀ (n : Nat), ∀ x ∈ natDigitsRevAux f n, x.toNat < 128 := by
  induction f with
  | zero =>
      intro n x hx
      simp [natDigitsRevAux] at hx
  | succ f ih =>
      intro n x hx
      simp only [natDigitsRevAux] at hx
      by_cases h : n < 10
      · rw [if_pos h] at hx
        simp at hx
        subst hx
        rw [charToNat_ofNat _ (by left; omega)]
        omega
      · rw [if_neg h] at hx
        rcases List.mem_cons.mp hx with rfl | hx2
        · rw [charToNat_ofNat _ (by left; omega)]
          omega
        · exact ih _ x hx2

/-- A printed integer is ASCII. -/
theorem intChars_ascii (i : Int) : ∀ x ∈ intChars i, x.toNat < 128 := by
  intro x hx
  unfold intChars natDigitsRev at hx
  by_cases h : i < 0
  · rw [if_pos h] at hx
    rcases List.mem_cons.mp hx with rfl | hx2
    · decide
    · exact natDigitsRevAux_ascii _ _ x (List.mem_reverse.mp hx2)
  · rw [if_neg h] at hx
    exact natDigitsRevAux_ascii _ _ x (List.mem_reverse.mp hx)

/-- Comma-joining ASCII pieces stays ASCII. -/
theorem joinComma_ascii :
    ∀ (xs : List (List Char)),
      (∀ l ∈ xs, ∀ x ∈ l, x.toNat < 128) →
      ∀ x ∈ joinComma xs, x.toNat < 128 := by
  intro xs
  induction xs with
  | nil =>
      intro _ x hx
      simp [joinComma] at hx
  | cons a ys ih =>
      cases ys with
      | nil =>
          intro h x hx
          exact h a (by simp) x hx
      | cons b zs =>
          intro h x hx
          simp only [joinComma] at hx
          rcases List.mem_append.mp hx with hxa | hx2
          · exact h a (by simp) x hxa
          · rcases List.mem_cons.mp hx2 with rfl | hx3
            · decide
            · exact ih (fun l hl => h l (List.mem_cons_of_mem a hl)) x hx3

/-- The printed inner object members are ASCII. -/
theorem printIntPairs_ascii (fs : List (String × Int)) :
    ∀ x ∈ printIntPairs fs, x.toNat < 128 := by
  intro x hx
  unfold printIntPairs at hx
  refine joinComma_ascii _ ?_ x hx
  intro l hl y hy
  simp only [List.mem_map] at hl
  obtain ⟨p, _, rfl⟩ := hl
  rcases List.mem_append.mp hy with h1 | h2
  · exact printJString_ascii _ y h1
  · rcases List.mem_cons.mp h2 with rfl | h3
    · decide
    · exact intChars_ascii _ y h3

/-- A printed value of the wire fragment is ASCII. -/
theorem printJVal_ascii (v : JVal) : ∀ x ∈ printJVal v, x.toNat < 128 := by
  intro x hx
  cases v with
  | jstr s => exact printJString_ascii s x hx
  | jint n => exact intChars_ascii n x hx
  | jobj fs =>
      simp only [printJVal] at hx
      rcases List.mem_cons.mp hx with rfl | hx2
      · decide
      · rcases List.mem_append.mp hx2 with h1 | h2
        · exact printIntPairs_ascii fs x h1
        · simp at h2
          subst h2
          decide
  | jnull =>
      simp only [printJVal] at hx
      fin_cases hx <;> decide
  | jbool b =>
      cases b <;> simp only [printJVal] at hx <;> fin_cases hx <;> decide

/-- `json.dumps` output under `ensure_ascii=True` is pure ASCII. -/
theorem jsonDumps_ascii (fs : List (String × JVal)) :
    ∀ x ∈ jsonDumps fs, x.toNat < 128 := by
  intro x hx
  simp only [jsonDumps] at hx
  rcases List.mem_cons.mp hx with rfl | hx2
  · decide
  rcases List.mem_append.mp hx2 with h1 | h2
  · refine joinComma_ascii _ ?_ x h1
    intro l hl y hy
    simp only [List.mem_map] at hl
    obtain ⟨p, _, rfl⟩ := hl
    rcases List.mem_append.mp hy with ha | hb
    · exact printJString_ascii _ y ha
    · rcases List.mem_cons.mp hb with rfl | hc
      · decide
      · exact printJVal_ascii _ y hc
  · simp at h2
    subst h2
    decide

/-- An ASCII leading byte is a one-byte sequence. -/
theorem utf8Head_ascii (b : Nat) (rest : Bytes) (hb : b < 128) :
    utf8Head b rest = some (b, rest) := by
  unfold utf8Head
  rw [if_pos hb]

/-- UTF-8 decoding of an ASCII character sequence recovers it. -/
theorem utf8DecodeAux_ascii :
    ∀ (cs : List Char) (fuel : Nat), (∀ c ∈ cs, c.toNat < 128) →
      cs.length ≤ fuel →
      utf8DecodeAux fuel (cs.map Char.toNat) = some cs := by
  intro cs
  induction cs with
  | nil =>
      intro fuel _ _
      cases fuel <;> rfl
  | cons c r ih =>
      intro fuel h hf
      match fuel, hf with
      | fuel + 1, hf =>
        have hc : c.toNat < 128 := h c (by simp)
        simp only [List.map_cons, utf8DecodeAux, utf8Head_ascii _ _ hc]
        rw [ih fuel (fun d hd => h d (List.mem_cons_of_mem c hd))
          (by simp at hf; omega)]
        simp [Char.ofNat_toNat]

/-- `bytes.decode('utf-8')` of the code points of an ASCII string is
the string itself. -/
theorem utf8Decode_ascii (cs : List Char) (h : ∀ c ∈ cs, c.toNat < 128) :
    utf8Decode (cs.map Char.toNat) = some cs := by
  unfold utf8Decode
  rw [List.length_map]
  exact utf8DecodeAux_ascii cs cs.length h (le_refl _)

/-- The keys of `to_dict` output, in insertion order. -/
theorem headerToDict_keys (h : E4PHeader) :
    (headerToDict h).map Prod.fst =
      ["alg", "kdf", "kdf_params", "salt", "nonce", "orig_name",
       "orig_size", "ts"] := rfl

/-- `from_dict` inverts `to_dict`. -/
theorem headerFromDict_toDict (h : E4PHeader) :
    headerFromDict (headerToDict h) = .ok h := rfl

/-- `struct.unpack('<I', struct.pack('<I', n))[0] = n`. -/
theorem le32Val_le32 (n : Nat) (hn : n < 4294967296) :
    le32Val (le32 n) = n := by
  simp only [le32, le32Val]
  omega

/-- C9: `serialize_header` emits `MAGIC || len(JSON) || JSON` with a
4-byte little-endian unsigned length and the compact UTF-8 (pure
ASCII) JSON encoding of the header, and `deserialize_header` of that
buffer returns the header unchanged together with `8 + len(JSON)`
bytes consumed.  Hypotheses: `kdf_params` is a Python `dict`, so its
keys are distinct, and the JSON fits the 32-bit length field (else
`struct.pack` raises). -/
theorem header_serialization_roundtrip (h : E4PHeader)
    (hkp : (h.kdfParams.map Prod.fst).Nodup)
    (hlen : (jsonDumps (headerToDict h)).length < 4294967296) :
    serializeHeaderE h =
      .ok (E4P_MAGIC ++ le32 (jsonDumps (headerToDict h)).length ++
        (jsonDumps (headerToDict h)).map Char.toNat) ∧
    deserializeHeader
        (E4P_MAGIC ++ le32 (jsonDumps (headerToDict h)).length ++
          (jsonDumps (headerToDict h)).map Char.toNat) =
      .ok (h, 8 + (jsonDumps (headerToDict h)).length) := by
  refine ⟨by unfold serializeHeaderE; rw [if_pos hlen], ?_⟩
  obtain ⟨js, hjs⟩ : ∃ js, jsonDumps (headerToDict h) = js := ⟨_, rfl⟩
  have hascii : ∀ x ∈ js, x.toNat < 128 := hjs ▸ jsonDumps_ascii _
  have hloads : jsonLoads js = some (headerToDict h) := by
    rw [← hjs]
    refine jsonLoads_dumps _ (by rw [headerToDict_keys]; decide) ?_
    intro p hp gs hg
    simp only [headerToDict, List.mem_cons, List.not_mem_nil, or_false] at hp
    rcases hp with rfl | rfl | rfl | rfl | rfl | rfl | rfl | rfl <;>
      simp_all
  have hlen2 : js.length < 4294967296 := hjs ▸ hlen
  rw [hjs]
  have hdl : (E4P_MAGIC ++ le32 js.length ++ js.map Char.toNat).length =
      8 + js.length := by
    simp [E4P_MAGIC, le32]
    omega
  unfold deserializeHeader
  rw [if_neg (show ¬ (E4P_MAGIC ++ le32 js.length ++
      js.map Char.toNat).length < 8 by rw [hdl]; omega)]
  rw [if_neg (show ¬ (E4P_MAGIC ++ le32 js.length ++
      js.map Char.toNat).take 4 ≠ E4P_MAGIC by
    rw [show (E4P_MAGIC ++ le32 js.length ++ js.map Char.toNat).take 4 =
      E4P_MAGIC from rfl]
    simp)]
  rw [show ((E4P_MAGIC ++ le32 js.length ++ js.map Char.toNat).drop 4).take 4 =
      le32 js.length from rfl]
  rw [le32Val_le32 _ hlen2]
  rw [if_neg (show ¬ (E4P_MAGIC ++ le32 js.length ++
      js.map Char.toNat).length < 8 + js.length by rw [hdl]; omega)]
  rw [show (E4P_MAGIC ++ le32 js.length ++ js.map Char.toNat).drop 8 =
      js.map Char.toNat from rfl]
  rw [show (js.map Char.toNat).take js.length = js.map Char.toNat by simp]
  rw [utf8Decode_ascii js hascii]
  simp only [hloads, headerFromDict_toDict, Bind.bind, Except.bind]

set_option maxRecDepth 100000 in
/-- C9 witness: the serialization round-trip at a concrete header. -/
theorem header_serialization_roundtrip_witness :
    (c9Header.kdfParams.map Prod.fst).Nodup ∧
    (jsonDumps (headerToDict c9Header)).length < 4294967296 ∧
    (serializeHeaderE c9Header =
      .ok (E4P_MAGIC ++ le32 (jsonDumps (headerToDict c9Header)).length ++
        (jsonDumps (headerToDict c9Header)).map Char.toNat) ∧
    deserializeHeader
        (E4P_MAGIC ++ le32 (jsonDumps (headerToDict c9Header)).length ++
          (jsonDumps (headerToDict c9Header)).map Char.toNat) =
      .ok (c9Header, 8 + (jsonDumps (headerToDict c9Header)).length)) :=
  ⟨by decide, by decide,
    header_serialization_roundtrip c9Header (by decide) (by decide)⟩

end E4P

namespace E4P

end E4P

namespace E4P

end E4P

namespace E4P

end E4P
